import Mathlib

/-!
Verification of the maze-game simulation core of the Maze-Arb repository.

The development shallowly embeds the TypeScript sources:
  - src/utilities/collision.ts      (bounds checks, cell queries, BFS pathfinding)
  - src/utilities/mazeUtilities.ts  (grid updates, maze generation, solvability,
                                     dead-end removal) and gameConstant.ts (LEVELS)
  - src/hook/useGameState.ts        (session state: scoring, collectible gating)
  - hooks/usePlayerMovement.ts      (movePlayer command handling)
  - hooks/useEnemyAI.ts             (getRandomMove anti-oscillation rule)

Numbers that are JavaScript numbers holding integer values are embedded as Int
(coordinates, times, scores) or Nat (cell kinds, counters).  A maze is a list
of rows of cells, as in the source.  Reading maze[y][x] out of range yields
undefined in JavaScript, which compares unequal to every cell constant; the
embedding returns 0 after an explicit negativity guard, which gives the same
truth value to every === WALL and !== WALL comparison performed by the code
(the only comparisons it performs on raw reads).  Writing out of range leaves
the grid cells unchanged, as in the source (negative indices become plain
properties, never grid cells).  Randomness is embedded as an explicit choice
oracle: each random draw of an index is (oracle step) modulo the number of
candidates, and the collectible shuffle is an arbitrary function parameter,
so theorems quantified over the oracle and shuffle cover every possible
sequence of random choices.
-/

/-- Grid coordinate pair, x is the column and y is the row. -/
structure Pos where
  x : Int
  y : Int
deriving DecidableEq, Repr

/-- A maze grid: a list of rows, each row a list of cell kinds. -/
abbrev Maze := List (List Nat)

/-- Cell kind constants from game.types.ts (CELL_TYPES). -/
def CELL_PATH : Nat := 0

/-- Wall cell kind. -/
def CELL_WALL : Nat := 1

/-- Player start cell kind. -/
def CELL_PLAYER : Nat := 2

/-- Exit cell kind. -/
def CELL_EXIT : Nat := 3

/-- Collectible cell kind. -/
def CELL_COLLECTIBLE : Nat := 4

/-- Enemy start cell kind. -/
def CELL_ENEMY : Nat := 5

/-- Raw read of maze[y][x].  Out-of-range reads give 0, which like the
undefined of the source compares unequal to WALL in every comparison the
code performs on raw reads. -/
def mazeGet (maze : Maze) (x y : Int) : Nat :=
  if 0 ≤ x ∧ 0 ≤ y then (maze.getD y.toNat []).getD x.toNat 0 else 0

/-- Raw write of maze[y][x] = v: out-of-range writes leave the grid
unchanged. -/
def mazeSet (maze : Maze) (x y : Int) (v : Nat) : Maze :=
  if 0 ≤ x ∧ 0 ≤ y then maze.set y.toNat ((maze.getD y.toNat []).set x.toNat v)
  else maze

/-- Embeds isInBounds from collision.ts: inside [0,width) x [0,height),
width taken from the first row as in the source. -/
def isInBounds (x y : Int) (maze : Maze) : Bool :=
  0 ≤ y && y < (maze.length : Int) && 0 ≤ x && x < ((maze.headD []).length : Int)

/-- Embeds isValidPosition from collision.ts: in bounds and not a wall. -/
def isValidPosition (x y : Int) (maze : Maze) : Bool :=
  if !isInBounds x y maze then false else mazeGet maze x y != CELL_WALL

/-- Embeds getCellType from collision.ts: the cell value, or WALL when out
of bounds. -/
def getCellType (x y : Int) (maze : Maze) : Nat :=
  if !isInBounds x y maze then CELL_WALL else mazeGet maze x y

/-- Embeds countCells from mazeUtilities.ts: maze.flat().filter(c => c === cellType).length. -/
def countCells (maze : Maze) (cellType : Nat) : Nat :=
  ((maze.flatMap id).filter (fun c => c == cellType)).length

/-- Embeds cloneMaze from mazeUtilities.ts; a deep copy is the same value in
a pure embedding. -/
def cloneMaze (maze : Maze) : Maze := maze

/-- Embeds updateMazeCell from mazeUtilities.ts: functional single-cell
update, returning the grid unchanged when (x, y) is out of bounds. -/
def updateMazeCell (maze : Maze) (x y : Int) (newValue : Nat) : Maze :=
  if !isInBounds x y maze then maze
  else mazeSet (cloneMaze maze) x y newValue

/-- The four cardinal unit directions in the order used throughout the
source: up, down, left, right. -/
def directions4 : List Pos := [⟨0, -1⟩, ⟨0, 1⟩, ⟨-1, 0⟩, ⟨1, 0⟩]

/-- Embeds getAdjacentPositions from collision.ts: the cardinal neighbors
that are valid (in bounds and not walls). -/
def getAdjacentPositions (pos : Pos) (maze : Maze) : List Pos :=
  (directions4.map (fun d => Pos.mk (pos.x + d.x) (pos.y + d.y))).filter
    (fun np => isValidPosition np.x np.y maze)

/-- Game phase from game.types.ts. -/
inductive GameState where
  | menu
  | playing
  | paused
  | won
  | lost
  | completed
deriving DecidableEq, Repr

/-- Level descriptor from game.types.ts, with the fields used by the
simulation core. -/
structure Level where
  id : Nat
  name : String
  timeLimit : Int
  collectibles : Nat
  enemyCount : Nat
  playerStart : Pos
  exitPosition : Pos
  enemyPositions : List Pos
  maze : Maze
deriving DecidableEq, Repr

/-- Session state of useGameState.ts: the hook state variables. -/
structure GameSession where
  gameState : GameState
  currentLevel : Nat
  score : Int
  totalScore : Int
  collectedItems : Nat
  timeLeft : Int
deriving DecidableEq, Repr

/-- Embeds initializeLevel from useGameState.ts. -/
def initializeLevel (levels : List Level) (s : GameSession) (levelIndex : Nat) :
    GameSession :=
  if h : levelIndex < levels.length then
    let level := levels.get ⟨levelIndex, h⟩
    { s with
      currentLevel := levelIndex
      timeLeft := level.timeLimit
      collectedItems := 0
      score := 0
      gameState := GameState.playing }
  else { s with gameState := GameState.completed }

/-- Embeds nextLevel from useGameState.ts: bank the level score plus time
bonus into the running total, then advance or complete. -/
def nextLevel (levels : List Level) (s : GameSession) : GameSession :=
  let timeBonus := s.timeLeft * 10
  let levelScore := s.score + timeBonus
  let s1 := { s with totalScore := s.totalScore + levelScore }
  if levels.length ≤ s.currentLevel + 1 then { s1 with gameState := GameState.completed }
  else initializeLevel levels s1 (s.currentLevel + 1)

/-- Embeds addScore from useGameState.ts. -/
def addScore (s : GameSession) (points : Int) : GameSession :=
  { s with score := s.score + points }

/-- Embeds collectItem from useGameState.ts: one more item, 100 points. -/
def collectItem (s : GameSession) : GameSession :=
  addScore { s with collectedItems := s.collectedItems + 1 } 100

/-- Embeds canExitLevel from useGameState.ts: levels[currentLevel] exists
and collectedItems >= level.collectibles. -/
def canExitLevel (levels : List Level) (s : GameSession) : Bool :=
  match levels.get? s.currentLevel with
  | some level => s.collectedItems ≥ level.collectibles
  | none => false

/-- Embeds isValidMove from usePlayerMovement.ts. -/
def isValidMove (maze : Maze) (x y : Int) : Bool :=
  if maze.length = 0 then false
  else if y < 0 || (maze.length : Int) ≤ y || x < 0 || ((maze.headD []).length : Int) ≤ x
    then false
  else mazeGet maze x y != CELL_WALL

/-- State read by movePlayer in usePlayerMovement.ts. -/
structure MoveState where
  maze : Maze
  playerPos : Pos
  lastMoveTime : Int
  gameState : GameState
deriving DecidableEq, Repr

/-- Result of a movePlayer call: the returned Boolean, the updated position
and rate-limit timestamp, and whether the collect and exit callbacks fired. -/
structure MoveOutcome where
  moved : Bool
  playerPos : Pos
  lastMoveTime : Int
  collected : Bool
  reachedExit : Bool
deriving DecidableEq, Repr

/-- Embeds movePlayer from usePlayerMovement.ts.  now is the Date.now()
sample of the call; the cooldown constant is 150 ms. -/
def movePlayer (st : MoveState) (dx dy now : Int) : MoveOutcome :=
  if st.gameState ≠ GameState.playing then
    ⟨false, st.playerPos, st.lastMoveTime, false, false⟩
  else if now - st.lastMoveTime < 150 then
    ⟨false, st.playerPos, st.lastMoveTime, false, false⟩
  else
    let newX := st.playerPos.x + dx
    let newY := st.playerPos.y + dy
    if !isValidMove st.maze newX newY then
      ⟨false, st.playerPos, now, false, false⟩
    else
      let cellType := mazeGet st.maze newX newY
      ⟨true, ⟨newX, newY⟩, now, cellType = CELL_COLLECTIBLE, cellType = CELL_EXIT⟩

/-- Level 1 of the bundled LEVELS data in gameConstant.ts. -/
def level1 : Level :=
  { id := 1
    name := "Getting Started"
    timeLimit := 60
    collectibles := 1
    enemyCount := 0
    playerStart := ⟨1, 1⟩
    exitPosition := ⟨7, 7⟩
    enemyPositions := []
    maze :=
      [[1,1,1,1,1,1,1,1,1],
       [1,0,0,0,1,0,0,0,1],
       [1,0,1,0,1,0,1,4,1],
       [1,0,1,0,0,0,1,0,1],
       [1,0,1,1,1,0,1,0,1],
       [1,0,0,0,0,0,1,0,1],
       [1,1,1,0,1,1,1,0,1],
       [1,0,0,0,0,0,0,3,1],
       [1,1,1,1,1,1,1,1,1]] }

/-- Level 2 of the bundled LEVELS data in gameConstant.ts. -/
def level2 : Level :=
  { id := 2
    name := "The Chase"
    timeLimit := 90
    collectibles := 3
    enemyCount := 2
    playerStart := ⟨1, 1⟩
    exitPosition := ⟨11, 9⟩
    enemyPositions := [⟨6, 3⟩, ⟨9, 7⟩]
    maze :=
      [[1,1,1,1,1,1,1,1,1,1,1,1,1],
       [1,0,0,0,1,0,0,0,0,0,1,4,1],
       [1,0,1,0,1,0,1,1,1,0,1,0,1],
       [1,0,1,0,0,0,0,0,1,0,0,0,1],
       [1,0,1,1,1,1,1,0,1,1,1,0,1],
       [1,0,0,0,0,0,0,0,0,0,0,0,1],
       [1,1,1,0,1,1,1,1,1,0,1,4,1],
       [1,0,0,0,1,0,0,0,0,0,1,0,1],
       [1,0,1,1,1,0,1,1,1,1,1,0,1],
       [1,4,0,0,0,0,0,0,0,0,0,3,1],
       [1,1,1,1,1,1,1,1,1,1,1,1,1]] }

/-- Level 3 of the bundled LEVELS data in gameConstant.ts. -/
def level3 : Level :=
  { id := 3
    name := "Labyrinth Master"
    timeLimit := 120
    collectibles := 5
    enemyCount := 3
    playerStart := ⟨1, 1⟩
    exitPosition := ⟨13, 11⟩
    enemyPositions := [⟨4, 4⟩, ⟨8, 6⟩, ⟨10, 9⟩]
    maze :=
      [[1,1,1,1,1,1,1,1,1,1,1,1,1,1,1],
       [1,0,0,0,1,0,0,0,0,0,1,0,0,4,1],
       [1,0,1,0,1,0,1,1,1,0,1,0,1,0,1],
       [1,0,1,0,0,0,1,0,0,0,0,0,1,0,1],
       [1,0,1,1,1,0,1,0,1,1,1,1,1,0,1],
       [1,0,0,0,0,0,0,0,0,0,0,0,0,0,1],
       [1,1,1,1,1,1,0,1,1,1,0,1,1,4,1],
       [1,0,0,0,0,0,0,1,0,0,0,1,0,0,1],
       [1,0,1,1,1,1,0,1,0,1,0,1,0,1,1],
       [1,0,0,0,0,0,0,0,0,1,0,0,0,0,1],
       [1,4,1,1,1,0,1,1,0,1,1,1,1,4,1],
       [1,0,0,0,0,0,1,0,0,0,0,0,0,3,1],
       [1,1,1,1,1,1,1,1,1,1,1,1,1,1,1]] }

/-- The bundled LEVELS array of gameConstant.ts. -/
def LEVELS : List Level := [level1, level2, level3]

/-- A session state in the bundled first level with two items collected,
used to separate the >= test of canExitLevel from the equality the spec
states. -/
def overCollectedSession : GameSession :=
  { gameState := GameState.playing
    currentLevel := 0
    score := 200
    totalScore := 0
    collectedItems := 2
    timeLeft := 30 }

/-- Embeds isValidEnemyMove from useEnemyAI.ts: non-empty grid, in bounds,
not a wall. -/
def isValidEnemyMove (maze : Maze) (x y : Int) : Bool :=
  if maze.length = 0 then false
  else 0 ≤ y && y < (maze.length : Int) && 0 ≤ x &&
    x < ((maze.headD []).length : Int) && mazeGet maze x y != CELL_WALL

/-- One step of the candidate-collection loop of getRandomMove in
useEnemyAI.ts: a valid neighbor is appended unless it was recently visited
while the list is already non-empty. -/
def getRandomMoveStep (maze : Maze) (enemyPos : Pos) (history : List Pos)
    (validMoves : List Pos) (d : Pos) : List Pos :=
  if isValidEnemyMove maze (enemyPos.x + d.x) (enemyPos.y + d.y) then
    if !(history.any (fun histPos =>
          histPos.x == enemyPos.x + d.x && histPos.y == enemyPos.y + d.y)) ||
        validMoves.length == 0 then
      validMoves ++ [⟨enemyPos.x + d.x, enemyPos.y + d.y⟩]
    else validMoves
  else validMoves

/-- The candidate list validMoves built by getRandomMove in useEnemyAI.ts. -/
def getRandomMoveCandidates (maze : Maze) (enemyPos : Pos) (history : List Pos) :
    List Pos :=
  directions4.foldl (getRandomMoveStep maze enemyPos history) []

/-- Embeds getRandomMove from useEnemyAI.ts; the random index draw
Math.floor(Math.random() * length) is embedded as k mod length, covering
every index as k ranges over the naturals. -/
def getRandomMove (maze : Maze) (enemyPos : Pos) (history : List Pos) (k : Nat) :
    Option Pos :=
  if (getRandomMoveCandidates maze enemyPos history).length = 0 then none
  else (getRandomMoveCandidates maze enemyPos history).get?
    (k % (getRandomMoveCandidates maze enemyPos history).length)

/-- Statement-level predicate: every passable cardinal neighbor of pos is
in the recent-move history. -/
def allPassableRecent (maze : Maze) (pos : Pos) (history : List Pos) : Bool :=
  directions4.all (fun d =>
    !isValidEnemyMove maze (pos.x + d.x) (pos.y + d.y) ||
      history.any (fun histPos =>
        histPos.x == pos.x + d.x && histPos.y == pos.y + d.y))

/-- The pocket maze for the anti-oscillation counterexample: the enemy at
(1, 1) has passable neighbors (1, 2), (0, 1) and (2, 1) and a wall above. -/
def pocketMaze : Maze := [[1,1,1],[0,0,0],[1,0,1]]

/-- Move history marking all three passable neighbors of (1, 1) in
pocketMaze as recently visited. -/
def pocketHistory : List Pos := [⟨1, 2⟩, ⟨0, 1⟩, ⟨2, 1⟩]

/-- The pair (x, y) addresses an actual stored cell of the grid. -/
def realIdx (maze : Maze) (x y : Int) : Prop :=
  0 ≤ x ∧ 0 ≤ y ∧ y.toNat < maze.length ∧ x.toNat < (maze.getD y.toNat []).length

lemma list_set_getD_self {α : Type} (l : List α) (n : Nat) (d : α) (h : n < l.length) :
    l.set n (l.getD n d) = l := by
  induction l generalizing n with
  | nil => simp at h
  | cons a l ih =>
    cases n with
    | zero => simp [List.getD]
    | succ n =>
      simp only [List.set, List.getD_cons_succ]
      rw [ih n (by simpa using h)]

lemma mazeGet_of_not_realIdx (maze : Maze) (x y : Int) (h : ¬ realIdx maze x y) :
    mazeGet maze x y = 0 := by
  unfold realIdx at h
  unfold mazeGet
  split
  · rename_i hxy
    by_cases hy : y.toNat < maze.length
    · by_cases hx : x.toNat < (maze.getD y.toNat []).length
      · exact absurd ⟨hxy.1, hxy.2, hy, hx⟩ h
      · exact List.getD_eq_default _ _ (le_of_not_lt hx)
    · have hrow : maze.getD y.toNat [] = [] := List.getD_eq_default _ _ (le_of_not_lt hy)
      rw [hrow]
      simp
  · rfl

lemma realIdx_of_mazeGet_ne (maze : Maze) (x y : Int) (h : mazeGet maze x y ≠ 0) :
    realIdx maze x y := by
  by_contra hc
  exact h (mazeGet_of_not_realIdx maze x y hc)

lemma mazeSet_of_not_realIdx (maze : Maze) (x y : Int) (v : Nat) (h : ¬ realIdx maze x y) :
    mazeSet maze x y v = maze := by
  unfold realIdx at h
  unfold mazeSet
  split
  · rename_i hxy
    by_cases hy : y.toNat < maze.length
    · by_cases hx : x.toNat < (maze.getD y.toNat []).length
      · exact absurd ⟨hxy.1, hxy.2, hy, hx⟩ h
      · rw [List.set_eq_of_length_le (le_of_not_lt hx)]
        exact list_set_getD_self maze y.toNat [] hy
    · rw [List.set_eq_of_length_le (le_of_not_lt hy)]
  · rfl

lemma mazeGet_mazeSet_self (maze : Maze) (x y : Int) (v : Nat) (h : realIdx maze x y) :
    mazeGet (mazeSet maze x y v) x y = v := by
  obtain ⟨hx0, hy0, hy, hx⟩ := h
  unfold mazeSet mazeGet
  rw [if_pos ⟨hx0, hy0⟩, if_pos ⟨hx0, hy0⟩]
  have hrowe : (List.set maze y.toNat ((maze.getD y.toNat []).set x.toNat v)).getD
      y.toNat [] = (maze.getD y.toNat []).set x.toNat v := by
    rw [List.getD_eq_getElem _ _ (by rw [List.length_set]; exact hy)]
    rw [List.getElem_set, if_pos rfl]
  rw [hrowe]
  rw [List.getD_eq_getElem _ _ (by rw [List.length_set]; exact hx)]
  rw [List.getElem_set, if_pos rfl]

lemma mazeGet_mazeSet_ne (maze : Maze) (x y : Int) (v : Nat) (a b : Int)
    (hne : a ≠ x ∨ b ≠ y) :
    mazeGet (mazeSet maze x y v) a b = mazeGet maze a b := by
  unfold mazeSet mazeGet
  by_cases hxy : 0 ≤ x ∧ 0 ≤ y
  · rw [if_pos hxy]
    by_cases hab : 0 ≤ a ∧ 0 ≤ b
    · rw [if_pos hab, if_pos hab]
      by_cases hby : y.toNat = b.toNat
      · have hbY : b = y := by omega
        have haX : a.toNat ≠ x.toNat := by
          rcases hne with h | h
          · omega
          · exact absurd hbY h
        by_cases hy : y.toNat < maze.length
        · have hrowe : (List.set maze y.toNat
              ((maze.getD y.toNat []).set x.toNat v)).getD b.toNat [] =
              (maze.getD y.toNat []).set x.toNat v := by
            rw [← hby]
            rw [List.getD_eq_getElem _ _ (by rw [List.length_set]; exact hy)]
            rw [List.getElem_set, if_pos rfl]
          rw [hrowe, ← hby]
          rw [List.getD_eq_getElem?_getD ((maze.getD y.toNat []).set x.toNat v),
            List.getD_eq_getElem?_getD (maze.getD y.toNat [])]
          rw [List.getElem?_set_ne (fun hc => haX hc.symm)]
        · rw [List.set_eq_of_length_le (le_of_not_lt hy)]
      · have hrowe : (List.set maze y.toNat
            ((maze.getD y.toNat []).set x.toNat v)).getD b.toNat [] =
            maze.getD b.toNat [] := by
          rw [List.getD_eq_getElem?_getD (List.set _ _ _), List.getElem?_set_ne hby,
            ← List.getD_eq_getElem?_getD maze]
        rw [hrowe]
    · rw [if_neg hab, if_neg hab]
  · rw [if_neg hxy]

lemma mazeGet_mazeSet_cases (maze : Maze) (x y : Int) (v : Nat) (a b : Int) :
    mazeGet (mazeSet maze x y v) a b = v ∨
    mazeGet (mazeSet maze x y v) a b = mazeGet maze a b := by
  by_cases hne : a = x ∧ b = y
  · by_cases hr : realIdx maze x y
    · rw [hne.1, hne.2]
      exact Or.inl (mazeGet_mazeSet_self maze x y v hr)
    · rw [mazeSet_of_not_realIdx maze x y v hr]
      exact Or.inr rfl
  · refine Or.inr (mazeGet_mazeSet_ne maze x y v a b ?_)
    tauto

lemma mazeSet_length (maze : Maze) (x y : Int) (v : Nat) :
    (mazeSet maze x y v).length = maze.length := by
  unfold mazeSet
  split
  · exact List.length_set maze y.toNat _
  · rfl

lemma mazeSet_row_length (maze : Maze) (x y : Int) (v : Nat) (j : Nat) :
    ((mazeSet maze x y v).getD j []).length = (maze.getD j []).length := by
  unfold mazeSet
  split
  · rw [List.getD_eq_getElem?_getD (List.set _ _ _), List.getElem?_set]
    split
    · rename_i hj
      split
      · rename_i hlen
        simp only [Option.getD_some, List.length_set]
        rw [← hj]
      · rename_i hlen
        have hrow : maze.getD j [] = [] := by
          rw [← hj]
          exact List.getD_eq_default _ _ (le_of_not_lt hlen)
        rw [hrow]
        rfl
    · rw [List.getD_eq_getElem?_getD maze j]
  · rfl

lemma realIdx_mazeSet (maze : Maze) (x y : Int) (v : Nat) (a b : Int) :
    realIdx (mazeSet maze x y v) a b ↔ realIdx maze a b := by
  unfold realIdx
  rw [mazeSet_length, mazeSet_row_length]

/-- Count of non-wall cells; the termination measure of removeDeadEnds. -/
def nonWallCount (maze : Maze) : Nat :=
  (maze.map (fun row => row.countP (fun c => !(c == CELL_WALL)))).sum

lemma sum_map_set {α : Type} (f : α → Nat) (d : α) (l : List α) (j : Nat) (r : α)
    (h : j < l.length) :
    ((l.set j r).map f).sum + f (l.getD j d) = (l.map f).sum + f r := by
  induction l generalizing j with
  | nil => simp at h
  | cons a l ih =>
    cases j with
    | zero =>
      simp only [List.set_cons_zero, List.map_cons, List.sum_cons, List.getD_cons_zero]
      omega
    | succ j =>
      simp only [List.set_cons_succ, List.map_cons, List.sum_cons, List.getD_cons_succ]
      have := ih j (by simpa using h)
      omega

lemma countP_set_le (p : Nat → Bool) (l : List Nat) (i : Nat) (a : Nat)
    (hpa : p a = false) : (l.set i a).countP p ≤ l.countP p := by
  by_cases h : i < l.length
  · rw [List.countP_set _ _ _ _ h, hpa]
    simp only [Bool.false_eq_true, if_false]
    omega
  · rw [List.set_eq_of_length_le (le_of_not_lt h)]

lemma countP_set_lt (p : Nat → Bool) (l : List Nat) (i : Nat) (a : Nat)
    (hpa : p a = false) (h : i < l.length) (hi : p (l.getD i 0) = true) :
    (l.set i a).countP p < l.countP p := by
  rw [List.getD_eq_getElem _ _ h] at hi
  have hpos : 0 < l.countP p := by
    rw [List.countP_pos_iff]
    exact ⟨_, List.getElem_mem h, hi⟩
  rw [List.countP_set _ _ _ _ h, hpa, hi]
  simp only [if_true, Bool.false_eq_true, if_false]
  omega

lemma nonWallCount_mazeSet_wall_le (maze : Maze) (x y : Int) :
    nonWallCount (mazeSet maze x y CELL_WALL) ≤ nonWallCount maze := by
  by_cases hr : realIdx maze x y
  · obtain ⟨hx0, hy0, hy, hx⟩ := hr
    unfold nonWallCount mazeSet
    rw [if_pos ⟨hx0, hy0⟩]
    have hs := sum_map_set (fun row => row.countP (fun c => !(c == CELL_WALL))) []
      maze y.toNat ((maze.getD y.toNat []).set x.toNat CELL_WALL) hy
    have hrow := countP_set_le (fun c => !(c == CELL_WALL)) (maze.getD y.toNat [])
      x.toNat CELL_WALL (by simp)
    simp only [] at hs
    omega
  · rw [mazeSet_of_not_realIdx maze x y CELL_WALL hr]

lemma nonWallCount_mazeSet_wall_lt (maze : Maze) (x y : Int) (hr : realIdx maze x y)
    (hv : mazeGet maze x y ≠ CELL_WALL) :
    nonWallCount (mazeSet maze x y CELL_WALL) < nonWallCount maze := by
  obtain ⟨hx0, hy0, hy, hx⟩ := hr
  have hget : mazeGet maze x y = (maze.getD y.toNat []).getD x.toNat 0 := by
    unfold mazeGet
    rw [if_pos ⟨hx0, hy0⟩]
  unfold nonWallCount mazeSet
  rw [if_pos ⟨hx0, hy0⟩]
  have hs := sum_map_set (fun row => row.countP (fun c => !(c == CELL_WALL))) []
    maze y.toNat ((maze.getD y.toNat []).set x.toNat CELL_WALL) hy
  have hrow := countP_set_lt (fun c => !(c == CELL_WALL)) (maze.getD y.toNat [])
    x.toNat CELL_WALL (by simp) hx
    (by rw [← hget]; simpa using hv)
  simp only [] at hs
  omega

/-- Embeds findDeadEnds from mazeUtilities.ts: the non-wall cells with
exactly one open cardinal neighbor, scanned row by row. -/
def findDeadEnds (maze : Maze) : List Pos :=
  (List.range maze.length).flatMap (fun (y : Nat) =>
    (List.range (maze.getD y []).length).filterMap (fun (x : Nat) =>
      if mazeGet maze (Int.ofNat x) (Int.ofNat y) ≠ CELL_WALL then
        if ((directions4.map (fun d =>
              Pos.mk (Int.ofNat x + d.x) (Int.ofNat y + d.y))).filter
            (fun p => isInBounds p.x p.y maze && mazeGet maze p.x p.y != CELL_WALL)).length
            = 1
        then some ⟨Int.ofNat x, Int.ofNat y⟩ else none
      else none))

lemma findDeadEnds_mem (maze : Maze) (p : Pos) (hp : p ∈ findDeadEnds maze) :
    realIdx maze p.x p.y ∧ mazeGet maze p.x p.y ≠ CELL_WALL := by
  unfold findDeadEnds at hp
  rw [List.mem_flatMap] at hp
  obtain ⟨y, hy, hp⟩ := hp
  rw [List.mem_filterMap] at hp
  obtain ⟨x, hx, hp⟩ := hp
  rw [List.mem_range] at hy
  rw [List.mem_range] at hx
  split at hp
  · split at hp
    · rename_i hwall hdeg
      have hpxy : p = Pos.mk (Int.ofNat x) (Int.ofNat y) := by
        cases hp
        rfl
      subst hpxy
      refine ⟨⟨?_, ?_, ?_, ?_⟩, hwall⟩
      · show (0 : Int) ≤ Int.ofNat x
        exact Int.ofNat_nonneg x
      · show (0 : Int) ≤ Int.ofNat y
        exact Int.ofNat_nonneg y
      · show (Int.ofNat y).toNat < maze.length
        simpa using hy
      · show (Int.ofNat x).toNat < (maze.getD (Int.ofNat y).toNat []).length
        simpa using hx
    · cases hp
  · cases hp

/-- One iteration of the dead-end removal pass of removeDeadEnds in
mazeUtilities.ts: exits and collectibles are skipped, anything else is
walled off, recording that a change happened. -/
def removeDeadEndStep (acc : Maze × Bool) (deadEnd : Pos) : Maze × Bool :=
  if mazeGet acc.1 deadEnd.x deadEnd.y = CELL_EXIT ∨
      mazeGet acc.1 deadEnd.x deadEnd.y = CELL_COLLECTIBLE then acc
  else (mazeSet acc.1 deadEnd.x deadEnd.y CELL_WALL, true)

lemma foldl_removeDeadEndStep_fst_le (l : List Pos) :
    ∀ acc : Maze × Bool,
      nonWallCount (l.foldl removeDeadEndStep acc).1 ≤ nonWallCount acc.1 := by
  induction l with
  | nil => intro acc; simp
  | cons p l ih =>
    intro acc
    simp only [List.foldl_cons]
    refine le_trans (ih _) ?_
    unfold removeDeadEndStep
    split
    · exact le_refl _
    · exact nonWallCount_mazeSet_wall_le _ _ _

lemma foldl_removeDeadEndStep_strict (l : List Pos) :
    ∀ m : Maze,
      (∀ p ∈ l, realIdx m p.x p.y ∧ mazeGet m p.x p.y ≠ CELL_WALL) →
      (l.foldl removeDeadEndStep (m, false)).2 = true →
      nonWallCount (l.foldl removeDeadEndStep (m, false)).1 < nonWallCount m := by
  induction l with
  | nil => intro m _ h2; simp at h2
  | cons p l ih =>
    intro m hmem h2
    simp only [List.foldl_cons] at h2 ⊢
    by_cases hskip : mazeGet m p.x p.y = CELL_EXIT ∨ mazeGet m p.x p.y = CELL_COLLECTIBLE
    · have hstep : removeDeadEndStep (m, false) p = (m, false) := by
        unfold removeDeadEndStep
        rw [if_pos hskip]
      rw [hstep] at h2 ⊢
      exact ih m (fun q hq => hmem q (List.mem_cons_of_mem _ hq)) h2
    · have hstep : removeDeadEndStep (m, false) p =
          (mazeSet m p.x p.y CELL_WALL, true) := by
        unfold removeDeadEndStep
        rw [if_neg hskip]
      rw [hstep]
      calc nonWallCount
            ((l.foldl removeDeadEndStep (mazeSet m p.x p.y CELL_WALL, true)).1)
          ≤ nonWallCount (mazeSet m p.x p.y CELL_WALL) :=
            foldl_removeDeadEndStep_fst_le l _
        _ < nonWallCount m :=
            nonWallCount_mazeSet_wall_lt m p.x p.y
              (hmem p (List.mem_cons_self _ _)).1 (hmem p (List.mem_cons_self _ _)).2

/-- Embeds the while(changed) loop of removeDeadEnds from mazeUtilities.ts:
repeat the wall-off pass over the current dead ends until a pass changes
nothing. -/
def removeDeadEndsLoop (maze : Maze) : Maze :=
  if h : ((findDeadEnds maze).foldl removeDeadEndStep (maze, false)).2 = true then
    removeDeadEndsLoop ((findDeadEnds maze).foldl removeDeadEndStep (maze, false)).1
  else ((findDeadEnds maze).foldl removeDeadEndStep (maze, false)).1
termination_by nonWallCount maze
decreasing_by
  exact foldl_removeDeadEndStep_strict (findDeadEnds maze) maze
    (fun p hp => findDeadEnds_mem maze p hp) h

/-- Embeds removeDeadEnds from mazeUtilities.ts. -/
def removeDeadEnds (maze : Maze) : Maze := removeDeadEndsLoop (cloneMaze maze)


/-- All in-bounds positions of a grid; a finite enumeration used as the
termination measure of the breadth-first loops. -/
def allPositions (maze : Maze) : List Pos :=
  (List.range maze.length).flatMap (fun (y : Nat) =>
    (List.range (maze.headD []).length).map (fun (x : Nat) =>
      Pos.mk (Int.ofNat x) (Int.ofNat y)))

/-- Count of in-bounds positions not yet visited. -/
def freeCount (maze : Maze) (visited : List Pos) : Nat :=
  (allPositions maze).countP (fun q => !decide (q ∈ visited))

/-- Weight of a queued position: out-of-bounds entries weigh more, so that
replacing one by at most four in-bounds neighbors shrinks the measure. -/
def posWeight (maze : Maze) (p : Pos) : Nat :=
  if isInBounds p.x p.y maze then 1 else 6

/-- Total weight of a queue of positions. -/
def queueWeightS (maze : Maze) (queue : List Pos) : Nat :=
  (queue.map (posWeight maze)).sum

/-- Total weight of a queue of position-path entries, keyed on the
position. -/
def queueWeightP (maze : Maze) (queue : List (Pos × List Pos)) : Nat :=
  (queue.map (fun e => posWeight maze e.1)).sum

lemma mem_allPositions (maze : Maze) (p : Pos)
    (h : isInBounds p.x p.y maze = true) : p ∈ allPositions maze := by
  unfold isInBounds at h
  simp only [Bool.and_eq_true, decide_eq_true_eq] at h
  obtain ⟨⟨⟨hy0, hy⟩, hx0⟩, hx⟩ := h
  unfold allPositions
  rw [List.mem_flatMap]
  refine ⟨p.y.toNat, by rw [List.mem_range]; omega, ?_⟩
  rw [List.mem_map]
  refine ⟨p.x.toNat, by rw [List.mem_range]; omega, ?_⟩
  have hx' : Int.ofNat p.x.toNat = p.x := Int.toNat_of_nonneg hx0
  have hy' : Int.ofNat p.y.toNat = p.y := Int.toNat_of_nonneg hy0
  cases p
  simp only [Pos.mk.injEq]
  exact ⟨hx', hy'⟩

lemma countP_notMem_cons_le {α : Type} [DecidableEq α] (l : List α)
    (visited : List α) (p : α) :
    l.countP (fun q => !decide (q ∈ p :: visited)) ≤
      l.countP (fun q => !decide (q ∈ visited)) := by
  refine List.countP_mono_left (fun x _ hx => ?_)
  simp only [Bool.not_eq_eq_eq_not, Bool.not_true, decide_eq_false_iff_not,
    List.mem_cons, not_or] at hx ⊢
  exact hx.2

lemma countP_notMem_cons_lt {α : Type} [DecidableEq α] (l : List α)
    (visited : List α) (p : α) (hp : p ∈ l) (hnv : p ∉ visited) :
    l.countP (fun q => !decide (q ∈ p :: visited)) <
      l.countP (fun q => !decide (q ∈ visited)) := by
  induction l with
  | nil => simp at hp
  | cons a l ih =>
    rw [List.countP_cons, List.countP_cons]
    by_cases hap : a = p
    · subst hap
      have h1 : (if (!decide (a ∈ a :: visited)) = true then 1 else 0) = 0 := by simp
      have h2 : (if (!decide (a ∈ visited)) = true then 1 else 0) = 1 := by simp [hnv]
      rw [h1, h2]
      have := countP_notMem_cons_le l visited a
      omega
    · have hp' : p ∈ l := by
        rcases List.mem_cons.mp hp with h | h
        · exact absurd h.symm hap
        · exact h
      have hmono : (if (!decide (a ∈ p :: visited)) = true then 1 else 0) ≤
          (if (!decide (a ∈ visited)) = true then 1 else 0) := by
        by_cases ha : a ∈ visited
        · have hacons : a ∈ p :: visited := List.mem_cons_of_mem _ ha
          simp [hacons, ha]
        · by_cases hap2 : a ∈ p :: visited
          · simp [hap2, ha]
          · simp [hap2, ha]
      have := ih hp'
      omega

lemma freeCount_cons_le (maze : Maze) (visited : List Pos) (p : Pos) :
    freeCount maze (p :: visited) ≤ freeCount maze visited :=
  countP_notMem_cons_le (allPositions maze) visited p

lemma freeCount_cons_lt (maze : Maze) (visited : List Pos) (p : Pos)
    (hinb : isInBounds p.x p.y maze = true) (hnv : p ∉ visited) :
    freeCount maze (p :: visited) < freeCount maze visited :=
  countP_notMem_cons_lt (allPositions maze) visited p (mem_allPositions maze p hinb) hnv

lemma queueWeightS_append (maze : Maze) (l1 l2 : List Pos) :
    queueWeightS maze (l1 ++ l2) = queueWeightS maze l1 + queueWeightS maze l2 := by
  unfold queueWeightS
  rw [List.map_append, List.sum_append]

lemma queueWeightP_append (maze : Maze) (l1 l2 : List (Pos × List Pos)) :
    queueWeightP maze (l1 ++ l2) = queueWeightP maze l1 + queueWeightP maze l2 := by
  unfold queueWeightP
  rw [List.map_append, List.sum_append]

lemma queueWeightS_all_inb (maze : Maze) (l : List Pos)
    (h : ∀ p ∈ l, isInBounds p.x p.y maze = true) :
    queueWeightS maze l = l.length := by
  induction l with
  | nil => rfl
  | cons a l ih =>
    unfold queueWeightS at ih ⊢
    simp only [List.map_cons, List.sum_cons, List.length_cons]
    rw [ih (fun p hp => h p (List.mem_cons_of_mem _ hp))]
    unfold posWeight
    rw [if_pos (h a (List.mem_cons_self _ _))]
    omega

lemma queueWeightP_all_inb (maze : Maze) (l : List (Pos × List Pos))
    (h : ∀ e ∈ l, isInBounds e.1.x e.1.y maze = true) :
    queueWeightP maze l = l.length := by
  induction l with
  | nil => rfl
  | cons a l ih =>
    unfold queueWeightP at ih ⊢
    simp only [List.map_cons, List.sum_cons, List.length_cons]
    rw [ih (fun e he => h e (List.mem_cons_of_mem _ he))]
    unfold posWeight
    rw [if_pos (h a (List.mem_cons_self _ _))]
    omega

/-- The neighbor positions pushed by one expansion step of the BFS of
isMazeSolvable in mazeUtilities.ts: in bounds, unvisited, not a wall. -/
def solvableNeighbors (maze : Maze) (current : Pos) (visited : List Pos) : List Pos :=
  directions4.filterMap (fun d =>
    if isInBounds (current.x + d.x) (current.y + d.y) maze ∧
        Pos.mk (current.x + d.x) (current.y + d.y) ∉ (current :: visited) ∧
        mazeGet maze (current.x + d.x) (current.y + d.y) ≠ CELL_WALL
    then some (Pos.mk (current.x + d.x) (current.y + d.y)) else none)

lemma solvableNeighbors_mem (maze : Maze) (current : Pos) (visited : List Pos)
    (p : Pos) (hp : p ∈ solvableNeighbors maze current visited) :
    (∃ d ∈ directions4, p = Pos.mk (current.x + d.x) (current.y + d.y)) ∧
    isInBounds p.x p.y maze = true ∧ p ∉ (current :: visited) ∧
    mazeGet maze p.x p.y ≠ CELL_WALL := by
  unfold solvableNeighbors at hp
  rw [List.mem_filterMap] at hp
  obtain ⟨d, hd, hpd⟩ := hp
  split at hpd
  · rename_i hcond
    cases hpd
    exact ⟨⟨d, hd, rfl⟩, hcond.1, hcond.2.1, hcond.2.2⟩
  · cases hpd

lemma solvableNeighbors_length_le (maze : Maze) (current : Pos) (visited : List Pos) :
    (solvableNeighbors maze current visited).length ≤ 4 := by
  unfold solvableNeighbors
  refine le_trans (List.length_filterMap_le _ _) ?_
  decide

/-- Embeds the while loop of isMazeSolvable from mazeUtilities.ts: a queue
of positions and a visited set, succeeding when the exit position is
dequeued. -/
def isMazeSolvableLoop (maze : Maze) (exitPos : Pos) (queue : List Pos)
    (visited : List Pos) : Bool :=
  match queue with
  | [] => false
  | current :: rest =>
    if current ∈ visited then isMazeSolvableLoop maze exitPos rest visited
    else if current.x = exitPos.x ∧ current.y = exitPos.y then true
    else isMazeSolvableLoop maze exitPos
      (rest ++ solvableNeighbors maze current visited) (current :: visited)
termination_by 6 * freeCount maze visited + queueWeightS maze queue
decreasing_by
  · have h1 : 1 ≤ posWeight maze current := by
      unfold posWeight
      split <;> omega
    unfold queueWeightS
    simp only [List.map_cons, List.sum_cons]
    omega
  · rename_i hnv _
    have hle : freeCount maze (current :: visited) ≤ freeCount maze visited :=
      freeCount_cons_le maze visited current
    have happ := queueWeightS_append maze rest (solvableNeighbors maze current visited)
    have hnb : queueWeightS maze (solvableNeighbors maze current visited) ≤ 4 := by
      rw [queueWeightS_all_inb maze _
        (fun p hp => (solvableNeighbors_mem maze current visited p hp).2.1)]
      exact solvableNeighbors_length_le maze current visited
    have hq : queueWeightS maze (current :: rest) =
        posWeight maze current + queueWeightS maze rest := by
      unfold queueWeightS
      simp [List.map_cons, List.sum_cons]
    by_cases hinb : isInBounds current.x current.y maze = true
    · have hlt : freeCount maze (current :: visited) < freeCount maze visited :=
        freeCount_cons_lt maze visited current hinb hnv
      have hw : posWeight maze current = 1 := by
        unfold posWeight
        rw [if_pos hinb]
      omega
    · have hw : posWeight maze current = 6 := by
        unfold posWeight
        rw [if_neg hinb]
      omega

/-- Embeds isMazeSolvable from mazeUtilities.ts: false when start or exit
is out of bounds, else breadth-first search from start. -/
def isMazeSolvable (maze : Maze) (start exitPos : Pos) : Bool :=
  if !isInBounds start.x start.y maze || !isInBounds exitPos.x exitPos.y maze
  then false
  else isMazeSolvableLoop maze exitPos [start] []

lemma getAdjacentPositions_mem (maze : Maze) (pos : Pos) (p : Pos)
    (hp : p ∈ getAdjacentPositions pos maze) :
    (∃ d ∈ directions4, p = Pos.mk (pos.x + d.x) (pos.y + d.y)) ∧
    isValidPosition p.x p.y maze = true := by
  unfold getAdjacentPositions at hp
  rw [List.mem_filter] at hp
  obtain ⟨hmem, hval⟩ := hp
  rw [List.mem_map] at hmem
  obtain ⟨d, hd, hpd⟩ := hmem
  exact ⟨⟨d, hd, hpd.symm⟩, hval⟩

lemma isValidPosition_isInBounds (maze : Maze) (x y : Int)
    (h : isValidPosition x y maze = true) : isInBounds x y maze = true := by
  unfold isValidPosition at h
  by_cases hb : isInBounds x y maze = true
  · exact hb
  · rw [if_pos (by simp [hb])] at h
    cases h

lemma getAdjacentPositions_length_le (maze : Maze) (pos : Pos) :
    (getAdjacentPositions pos maze).length ≤ 4 := by
  unfold getAdjacentPositions
  have h1 := List.length_filter_le
    (fun np => isValidPosition np.x np.y maze)
    (directions4.map (fun d => Pos.mk (pos.x + d.x) (pos.y + d.y)))
  simpa using h1

/-- Embeds the BFS loop of findPath from collision.ts: a queue of
position-path entries and a visited set; the path stored with the dequeued
goal entry is returned. -/
def findPathLoop (maze : Maze) (goal : Pos) (queue : List (Pos × List Pos))
    (visited : List Pos) : Option (List Pos) :=
  match queue with
  | [] => none
  | (pos, path) :: rest =>
    if pos ∈ visited then findPathLoop maze goal rest visited
    else if pos.x = goal.x ∧ pos.y = goal.y then some path
    else findPathLoop maze goal
      (rest ++ ((getAdjacentPositions pos maze).filter
        (fun np => decide (np ∉ (pos :: visited)))).map (fun np => (np, path ++ [np])))
      (pos :: visited)
termination_by 6 * freeCount maze visited + queueWeightP maze queue
decreasing_by
  · have h1 : 1 ≤ posWeight maze pos := by
      unfold posWeight
      split <;> omega
    unfold queueWeightP
    simp only [List.map_cons, List.sum_cons]
    omega
  · rename_i hnv _
    have hle : freeCount maze (pos :: visited) ≤ freeCount maze visited :=
      freeCount_cons_le maze visited pos
    have happ := queueWeightP_append maze rest
      (((getAdjacentPositions pos maze).filter
        (fun np => decide (np ∉ (pos :: visited)))).map (fun np => (np, path ++ [np])))
    have hnb : queueWeightP maze
        (((getAdjacentPositions pos maze).filter
          (fun np => decide (np ∉ (pos :: visited)))).map
            (fun np => (np, path ++ [np]))) ≤ 4 := by
      have hlen : (((getAdjacentPositions pos maze).filter
          (fun np => decide (np ∉ (pos :: visited)))).map
            (fun np => (np, path ++ [np]))).length ≤ 4 := by
        rw [List.length_map]
        refine le_trans (List.length_filter_le _ _) ?_
        exact getAdjacentPositions_length_le maze pos
      have hall : ∀ e ∈ ((getAdjacentPositions pos maze).filter
          (fun np => decide (np ∉ (pos :: visited)))).map
            (fun np => (np, path ++ [np])), isInBounds e.1.x e.1.y maze = true := by
        intro e he
        rw [List.mem_map] at he
        obtain ⟨np, hnp, he⟩ := he
        rw [List.mem_filter] at hnp
        have hval := (getAdjacentPositions_mem maze pos np hnp.1).2
        have hinb := isValidPosition_isInBounds maze np.x np.y hval
        subst he
        exact hinb
      rw [queueWeightP_all_inb maze _ hall]
      exact hlen
    have hq : queueWeightP maze ((pos, path) :: rest) =
        posWeight maze pos + queueWeightP maze rest := by
      unfold queueWeightP
      simp [List.map_cons, List.sum_cons]
    by_cases hinb : isInBounds pos.x pos.y maze = true
    · have hlt : freeCount maze (pos :: visited) < freeCount maze visited :=
        freeCount_cons_lt maze visited pos hinb hnv
      have hw : posWeight maze pos = 1 := by
        unfold posWeight
        rw [if_pos hinb]
      omega
    · have hw : posWeight maze pos = 6 := by
        unfold posWeight
        rw [if_neg hinb]
      omega

/-- Embeds findPath from collision.ts: null when start or goal is invalid,
else BFS from start carrying explicit paths. -/
def findPath (start goal : Pos) (maze : Maze) : Option (List Pos) :=
  if !isValidPosition start.x start.y maze || !isValidPosition goal.x goal.y maze
  then none
  else findPathLoop maze goal [(start, [start])] []

/-- One permitted step of the breadth-first searches: a cardinal move into
an in-bounds, non-wall cell. -/
def stepOK (maze : Maze) (a b : Pos) : Prop :=
  (∃ d ∈ directions4, b = Pos.mk (a.x + d.x) (a.y + d.y)) ∧
  isInBounds b.x b.y maze = true ∧ mazeGet maze b.x b.y ≠ CELL_WALL

/-- Walks of stepOK steps from a to b of length k avoiding a visited set
(every node of the walk, endpoints included, is outside visited). -/
inductive ReachAvoidN (maze : Maze) (visited : List Pos) : Pos → Pos → Nat → Prop
  | refl (p : Pos) (h : p ∉ visited) : ReachAvoidN maze visited p p 0
  | step (a b c : Pos) (k : Nat) (hr : ReachAvoidN maze visited a b k)
      (hs : stepOK maze b c) (hc : c ∉ visited) : ReachAvoidN maze visited a c (k + 1)

/-- Reachability through in-bounds non-wall cells, the specification-side
notion the breadth-first searches decide. -/
def Reach (maze : Maze) (a b : Pos) : Prop :=
  ∃ k, ReachAvoidN maze [] a b k


/-- Statement-level predicate: p is a walk from s to g taking stepOK moves
only (so every entered cell is in bounds and not a wall), starting at the
valid position s. -/
def ValidPathList (maze : Maze) (s g : Pos) (p : List Pos) : Prop :=
  p.head? = some s ∧ p.getLast? = some g ∧ List.Chain' (stepOK maze) p ∧
  isValidPosition s.x s.y maze = true

instance stepOK_decidable (maze : Maze) (a b : Pos) : Decidable (stepOK maze a b) := by
  unfold stepOK
  infer_instance

instance validPathList_decidable (maze : Maze) (s g : Pos) (p : List Pos) :
    Decidable (ValidPathList maze s g p) := by
  unfold ValidPathList
  infer_instance


/-- Count of wall cells; the termination measure of the carving loop. -/
def wallCount (maze : Maze) : Nat :=
  (maze.map (fun row => row.countP (fun c => c == CELL_WALL))).sum

lemma wallCount_mazeSet_path_le (maze : Maze) (x y : Int) :
    wallCount (mazeSet maze x y CELL_PATH) ≤ wallCount maze := by
  by_cases hr : realIdx maze x y
  · obtain ⟨hx0, hy0, hy, hx⟩ := hr
    unfold wallCount mazeSet
    rw [if_pos ⟨hx0, hy0⟩]
    have hs := sum_map_set (fun row => row.countP (fun c => c == CELL_WALL)) []
      maze y.toNat ((maze.getD y.toNat []).set x.toNat CELL_PATH) hy
    have hrow := countP_set_le (fun c => c == CELL_WALL) (maze.getD y.toNat [])
      x.toNat CELL_PATH (by decide)
    simp only [] at hs
    omega
  · rw [mazeSet_of_not_realIdx maze x y CELL_PATH hr]

lemma wallCount_mazeSet_path_lt (maze : Maze) (x y : Int)
    (hv : mazeGet maze x y = CELL_WALL) :
    wallCount (mazeSet maze x y CELL_PATH) < wallCount maze := by
  have hr : realIdx maze x y := realIdx_of_mazeGet_ne maze x y (by rw [hv]; decide)
  obtain ⟨hx0, hy0, hy, hx⟩ := hr
  have hget : mazeGet maze x y = (maze.getD y.toNat []).getD x.toNat 0 := by
    unfold mazeGet
    rw [if_pos ⟨hx0, hy0⟩]
  unfold wallCount mazeSet
  rw [if_pos ⟨hx0, hy0⟩]
  have hs := sum_map_set (fun row => row.countP (fun c => c == CELL_WALL)) []
    maze y.toNat ((maze.getD y.toNat []).set x.toNat CELL_PATH) hy
  have hrow := countP_set_lt (fun c => c == CELL_WALL) (maze.getD y.toNat [])
    x.toNat CELL_PATH (by decide) hx
    (by rw [← hget, hv]; decide)
  simp only [] at hs
  omega

/-- The four two-cell directions of the carving loop of generateMaze in
mazeUtilities.ts, in source order: up, right, down, left. -/
def carveDirs : List Pos := [⟨0, -2⟩, ⟨2, 0⟩, ⟨0, 2⟩, ⟨-2, 0⟩]

/-- The unvisited (wall) two-cell neighbors of the current carving cell,
within the interior of the w-by-h frame, as collected by generateMaze. -/
def carveNeighbors (w ht : Int) (maze : Maze) (current : Pos) : List Pos :=
  carveDirs.filterMap (fun d =>
    if 0 < current.x + d.x ∧ current.x + d.x < w - 1 ∧ 0 < current.y + d.y ∧
        current.y + d.y < ht - 1 ∧
        mazeGet maze (current.x + d.x) (current.y + d.y) = CELL_WALL
    then some (Pos.mk (current.x + d.x) (current.y + d.y)) else none)

lemma carveNeighbors_mem (w ht : Int) (maze : Maze) (current : Pos) (p : Pos)
    (hp : p ∈ carveNeighbors w ht maze current) :
    (∃ d ∈ carveDirs, p = Pos.mk (current.x + d.x) (current.y + d.y)) ∧
    0 < p.x ∧ p.x < w - 1 ∧ 0 < p.y ∧ p.y < ht - 1 ∧
    mazeGet maze p.x p.y = CELL_WALL := by
  unfold carveNeighbors at hp
  rw [List.mem_filterMap] at hp
  obtain ⟨d, hd, hpd⟩ := hp
  split at hpd
  · rename_i hcond
    cases hpd
    exact ⟨⟨d, hd, rfl⟩, hcond.1, hcond.2.1, hcond.2.2.1, hcond.2.2.2.1, hcond.2.2.2.2⟩
  · cases hpd

lemma list_getD_mem {α : Type} (l : List α) (n : Nat) (d : α) (h : n < l.length) :
    l.getD n d ∈ l := by
  rw [List.getD_eq_getElem l d h]
  exact List.getElem_mem h

/-- The random neighbor chosen at one carving step: index
(oracle step) mod length into the neighbor list, embedding
Math.floor(Math.random() * length). -/
def carveNext (w ht : Int) (oracle : Nat → Nat) (step : Nat) (maze : Maze)
    (current : Pos) : Pos :=
  (carveNeighbors w ht maze current).getD
    (oracle step % (carveNeighbors w ht maze current).length) (Pos.mk 0 0)

lemma carveNext_mem (w ht : Int) (oracle : Nat → Nat) (step : Nat) (maze : Maze)
    (current : Pos) (hne : (carveNeighbors w ht maze current).length ≠ 0) :
    carveNext w ht oracle step maze current ∈ carveNeighbors w ht maze current := by
  unfold carveNext
  exact list_getD_mem _ _ _ (Nat.mod_lt _ (Nat.pos_of_ne_zero hne))

/-- Embeds the carving loop of generateMaze from mazeUtilities.ts: a
depth-first backtracker over a stack; while unvisited two-cell neighbors
exist, carve the chosen neighbor and the wall between and push; else pop. -/
def carveLoop (w ht : Int) (oracle : Nat → Nat) (step : Nat) (maze : Maze)
    (stack : List Pos) : Maze :=
  match stack with
  | [] => maze
  | current :: rest =>
    if (carveNeighbors w ht maze current).length ≠ 0 then
      carveLoop w ht oracle (step + 1)
        (mazeSet
          (mazeSet maze (carveNext w ht oracle step maze current).x
            (carveNext w ht oracle step maze current).y CELL_PATH)
          (current.x + ((carveNext w ht oracle step maze current).x - current.x) / 2)
          (current.y + ((carveNext w ht oracle step maze current).y - current.y) / 2)
          CELL_PATH)
        (carveNext w ht oracle step maze current :: current :: rest)
    else carveLoop w ht oracle (step + 1) maze rest
termination_by 2 * wallCount maze + stack.length
decreasing_by
  · rename_i hne
    have hmem := carveNext_mem w ht oracle step maze current hne
    have hfacts := carveNeighbors_mem w ht maze current _ hmem
    have hw1 : wallCount (mazeSet maze (carveNext w ht oracle step maze current).x
        (carveNext w ht oracle step maze current).y CELL_PATH) < wallCount maze :=
      wallCount_mazeSet_path_lt maze _ _ hfacts.2.2.2.2.2
    have hw2 : wallCount (mazeSet
        (mazeSet maze (carveNext w ht oracle step maze current).x
          (carveNext w ht oracle step maze current).y CELL_PATH)
        (current.x + ((carveNext w ht oracle step maze current).x - current.x) / 2)
        (current.y + ((carveNext w ht oracle step maze current).y - current.y) / 2)
        CELL_PATH) ≤ wallCount (mazeSet maze
          (carveNext w ht oracle step maze current).x
          (carveNext w ht oracle step maze current).y CELL_PATH) :=
      wallCount_mazeSet_path_le _ _ _
    simp only [List.length_cons]
    omega
  · simp only [List.length_cons]
    omega

/-- Integer range with step 2 from lo (inclusive) while below hi, as in the
for loops of generateMaze. -/
def stepRange2 (lo hi : Int) : List Int :=
  (List.range ((hi - lo + 1) / 2).toNat).map (fun (k : Nat) => lo + 2 * Int.ofNat k)

/-- The odd interior path cells collected by generateMaze as collectible
candidates: value PATH, excluding the start (1, 1) and the exit corner. -/
def collectPathCells (maze : Maze) (w ht : Int) : List Pos :=
  (stepRange2 1 (ht - 1)).flatMap (fun y =>
    (stepRange2 1 (w - 1)).filterMap (fun x =>
      if mazeGet maze x y = CELL_PATH ∧ ¬(x = 1 ∧ y = 1) ∧
          ¬(x = w - 2 ∧ y = ht - 2)
      then some (Pos.mk x y) else none))

/-- Coercion of a requested dimension to odd, as in generateMaze: even
values are incremented. -/
def oddCoerce (n : Int) : Int := if n % 2 = 0 then n + 1 else n

/-- Embeds generateMaze from mazeUtilities.ts.  oracle supplies each random
index draw (taken mod the candidate count), and shuffle stands for the
random sort of the collectible candidates; quantifying over both covers
every sequence of random choices. -/
def generateMaze (width height : Int) (collectibles : Nat) (oracle : Nat → Nat)
    (shuffle : List Pos → List Pos) : Maze :=
  let w := oddCoerce width
  let ht := oddCoerce height
  let maze0 : Maze := List.replicate ht.toNat (List.replicate w.toNat CELL_WALL)
  let maze1 := mazeSet maze0 1 1 CELL_PATH
  let carved := carveLoop w ht oracle 0 maze1 [⟨1, 1⟩]
  let withExit := mazeSet carved (w - 2) (ht - 2) CELL_EXIT
  let shuffled := shuffle (collectPathCells withExit w ht)
  (shuffled.take (min collectibles shuffled.length)).foldl
    (fun m p => mazeSet m p.x p.y CELL_COLLECTIBLE) withExit

/-- A w-by-ht rectangular grid. -/
def rectGrid (w ht : Int) (maze : Maze) : Prop :=
  maze.length = ht.toNat ∧ ∀ row ∈ maze, row.length = w.toNat

/-- Strict interior of the w-by-ht frame, the region the carver works in. -/
def inRange (w ht : Int) (p : Pos) : Prop :=
  0 < p.x ∧ p.x < w - 1 ∧ 0 < p.y ∧ p.y < ht - 1

/-- Invariant of the carving loop: the grid is rectangular, the start cell
is carved, stack cells are interior odd cells, every carved interior
odd-odd cell is on the stack or has all its interior two-cell neighbors
carved, and every carved in-bounds cell is reachable from the start. -/
def CarveInv (w ht : Int) (maze : Maze) (stack : List Pos) : Prop :=
  rectGrid w ht maze ∧
  mazeGet maze 1 1 = CELL_PATH ∧
  (∀ p ∈ stack, inRange w ht p ∧ p.x % 2 = 1 ∧ p.y % 2 = 1 ∧
    mazeGet maze p.x p.y = CELL_PATH) ∧
  (∀ p : Pos, inRange w ht p → p.x % 2 = 1 → p.y % 2 = 1 →
    mazeGet maze p.x p.y ≠ CELL_WALL →
    p ∈ stack ∨ ∀ d ∈ carveDirs, inRange w ht (Pos.mk (p.x + d.x) (p.y + d.y)) →
      mazeGet maze (p.x + d.x) (p.y + d.y) ≠ CELL_WALL) ∧
  (∀ p : Pos, isInBounds p.x p.y maze = true → mazeGet maze p.x p.y ≠ CELL_WALL →
    Reach maze (Pos.mk 1 1) p)


-- ======================================================================
-- Theorems and supporting lemmas.
-- ======================================================================

lemma mem_foldl_getRandomMoveStep (maze : Maze) (enemyPos : Pos) (history : List Pos) :
    ∀ (ds : List Pos) (acc : List Pos) (p : Pos),
      p ∈ ds.foldl (getRandomMoveStep maze enemyPos history) acc →
      p ∈ acc ∨ ∃ d ∈ ds, p = Pos.mk (enemyPos.x + d.x) (enemyPos.y + d.y) ∧
        isValidEnemyMove maze p.x p.y = true := by
  intro ds
  induction ds with
  | nil => intro acc p hp; exact Or.inl hp
  | cons d ds ih =>
    intro acc p hp
    simp only [List.foldl_cons] at hp
    rcases ih _ p hp with hacc | ⟨d', hd', hp', hv'⟩
    · unfold getRandomMoveStep at hacc
      split at hacc
      · split at hacc
        · rcases List.mem_append.mp hacc with h | h
          · exact Or.inl h
          · rename_i hval _
            refine Or.inr ⟨d, List.mem_cons_self _ _, ?_, ?_⟩
            · simpa using h
            · simp only [List.mem_singleton] at h
              subst h
              exact hval
        · exact Or.inl hacc
      · exact Or.inl hacc
    · exact Or.inr ⟨d', List.mem_cons_of_mem _ hd', hp', hv'⟩

lemma foldl_getRandomMoveStep_ne_nil (maze : Maze) (enemyPos : Pos) (history : List Pos) :
    ∀ (ds : List Pos) (acc : List Pos),
      (acc ≠ [] ∨ ∃ d ∈ ds,
        isValidEnemyMove maze (enemyPos.x + d.x) (enemyPos.y + d.y) = true) →
      ds.foldl (getRandomMoveStep maze enemyPos history) acc ≠ [] := by
  intro ds
  induction ds with
  | nil =>
    intro acc h
    rcases h with h | ⟨d, hd, _⟩
    · simpa using h
    · simp at hd
  | cons d ds ih =>
    intro acc h
    simp only [List.foldl_cons]
    apply ih
    rcases h with h | ⟨d', hd', hv'⟩
    · left
      unfold getRandomMoveStep
      split
      · split
        · simp
        · exact h
      · exact h
    · rcases List.mem_cons.mp hd' with rfl | hd'
      · left
        unfold getRandomMoveStep
        rw [hv']
        split
        · split
          · simp
          · rename_i hcond
            intro hnil
            subst hnil
            simp at hcond
        · rename_i hfalse
          exact absurd rfl hfalse
      · exact Or.inr ⟨d', hd', hv'⟩

lemma foldl_getRandomMoveStep_len_le_one (maze : Maze) (enemyPos : Pos)
    (history : List Pos) :
    ∀ (ds : List Pos) (acc : List Pos),
      (∀ d ∈ ds, isValidEnemyMove maze (enemyPos.x + d.x) (enemyPos.y + d.y) = true →
        history.any (fun histPos =>
          histPos.x == enemyPos.x + d.x && histPos.y == enemyPos.y + d.y) = true) →
      acc.length ≤ 1 →
      (ds.foldl (getRandomMoveStep maze enemyPos history) acc).length ≤ 1 := by
  intro ds
  induction ds with
  | nil => intro acc _ hlen; simpa using hlen
  | cons d ds ih =>
    intro acc hrec hlen
    simp only [List.foldl_cons]
    apply ih _ (fun d' hd' => hrec d' (List.mem_cons_of_mem _ hd'))
    unfold getRandomMoveStep
    split
    · rename_i hval
      have hr := hrec d (List.mem_cons_self _ _) hval
      rw [hr]
      simp only [Bool.not_true, Bool.false_or]
      split
      · rename_i hz
        simp only [beq_iff_eq] at hz
        simp [hz]
      · exact hlen
    · exact hlen

lemma getRandomMove_eq_some_mem (maze : Maze) (enemyPos : Pos) (history : List Pos)
    (k : Nat) (q : Pos) (h : getRandomMove maze enemyPos history k = some q) :
    q ∈ getRandomMoveCandidates maze enemyPos history := by
  unfold getRandomMove at h
  split at h
  · exact absurd h (by simp)
  · exact List.get?_mem h

/-- C1 counterexample: a session holding 2 collected items against a level
declaring 1 collectible makes canExitLevel true although the counts are not
equal, refuting the claimed if-and-only-if-equality over all session
states (the code tests greater-or-equal). -/
theorem canExitLevel_eq_counterexample :
    canExitLevel [level1] overCollectedSession = true ∧
    overCollectedSession.collectedItems ≠ level1.collectibles := by
  constructor
  · rfl
  · decide

/-- C1 (amended): canExitLevel tests collectedItems >= level.collectibles;
on every session state satisfying the documented invariant
collectedItems <= level.collectibles this coincides with equality. -/
theorem canExitLevel_ge_iff_eq (levels : List Level) (s : GameSession) (level : Level)
    (hlv : levels.get? s.currentLevel = some level)
    (hinv : s.collectedItems ≤ level.collectibles) :
    canExitLevel levels s = true ↔ s.collectedItems = level.collectibles := by
  unfold canExitLevel
  rw [hlv]
  simp only [decide_eq_true_eq]
  omega

/-- C1 witness: the amended theorem applied to the bundled first level with
exactly one item collected. -/
theorem canExitLevel_ge_iff_eq_witness :
    canExitLevel [level1] { overCollectedSession with collectedItems := 1 } = true ↔
      ({ overCollectedSession with collectedItems := 1 } : GameSession).collectedItems
        = level1.collectibles :=
  canExitLevel_ge_iff_eq [level1] _ level1 (by rfl) (by decide)

/-- C3 counterexample: reading far outside a 1 x 1 grid returns the WALL
cell kind, an ordinary cell kind, not a sentinel distinct from Wall and not
an error. -/
theorem getCellType_oob_counterexample : getCellType 5 5 [[0]] = CELL_WALL := by
  rfl

/-- C3 (amended): for every grid and every out-of-bounds position,
getCellType returns CELL_WALL, treating everything outside the grid as
wall. -/
theorem getCellType_oob_wall (x y : Int) (maze : Maze)
    (h : isInBounds x y maze = false) : getCellType x y maze = CELL_WALL := by
  unfold getCellType
  rw [h]
  rfl

/-- C3 witness: the amended theorem applied to position (5, 5) of the 1 x 1
grid. -/
theorem getCellType_oob_wall_witness :
    isInBounds 5 5 [[0]] = false ∧ getCellType 5 5 [[0]] = CELL_WALL :=
  ⟨by decide, getCellType_oob_wall 5 5 [[0]] (by decide)⟩

/-- C5: updateMazeCell at an out-of-bounds position returns the input grid
unchanged, a silent no-op rather than an error. -/
theorem updateMazeCell_oob_id (maze : Maze) (x y : Int) (v : Nat)
    (h : isInBounds x y maze = false) : updateMazeCell maze x y v = maze := by
  unfold updateMazeCell
  rw [h]
  rfl

/-- C5 witness: updating cell (-1, 0) of the 1 x 1 grid with any value is
the identity. -/
theorem updateMazeCell_oob_id_witness :
    isInBounds (-1) 0 [[0]] = false ∧ updateMazeCell [[0]] (-1) 0 7 = [[0]] :=
  ⟨by decide, updateMazeCell_oob_id [[0]] (-1) 0 7 (by decide)⟩

/-- C8: taking the continue action from the won state adds exactly the
completed level base score plus timeRemaining times the bonus multiplier 10
to the running total, for every score and time value and both the
next-level and game-completed branches. -/
theorem nextLevel_totalScore (levels : List Level) (s : GameSession) :
    (nextLevel levels s).totalScore = s.totalScore + s.score + s.timeLeft * 10 := by
  unfold nextLevel initializeLevel
  split
  · ring
  · split
    · ring
    · ring

/-- C9: movePlayer is a silent rejection, returning false and leaving the
player position unchanged, whenever the phase is not playing, the target
cell is out of bounds, the target cell is a wall, or the call arrives
within the 150 ms cooldown of the previous accepted move. -/
theorem movePlayer_rejects (st : MoveState) (dx dy now : Int)
    (h : st.gameState ≠ GameState.playing ∨
      isInBounds (st.playerPos.x + dx) (st.playerPos.y + dy) st.maze = false ∨
      mazeGet st.maze (st.playerPos.x + dx) (st.playerPos.y + dy) = CELL_WALL ∨
      now - st.lastMoveTime < 150) :
    (movePlayer st dx dy now).moved = false ∧
    (movePlayer st dx dy now).playerPos = st.playerPos := by
  have hval : st.gameState ≠ GameState.playing ∨ now - st.lastMoveTime < 150 ∨
      isValidMove st.maze (st.playerPos.x + dx) (st.playerPos.y + dy) = false := by
    rcases h with h | h | h | h
    · exact Or.inl h
    · refine Or.inr (Or.inr ?_)
      unfold isValidMove
      unfold isInBounds at h
      simp only [Bool.and_eq_false_iff, decide_eq_false_iff_not, not_le, not_lt] at h ⊢
      split
      · rfl
      · split
        · rfl
        · exfalso
          rename_i hlen hb
          simp only [Bool.or_eq_true, decide_eq_true_eq, not_or, not_lt, not_le] at hb
          rcases h with ((h | h) | h) | h <;> omega
    · refine Or.inr (Or.inr ?_)
      unfold isValidMove
      split
      · rfl
      · split
        · rfl
        · simp [h]
    · exact Or.inr (Or.inl h)
  unfold movePlayer
  rcases hval with h | h | h
  · simp [h]
  · by_cases hg : st.gameState = GameState.playing <;> simp [hg, h]
  · by_cases hg : st.gameState = GameState.playing
    · by_cases hc : now - st.lastMoveTime < 150 <;> simp [hg, hc, h]
    · simp [hg]

/-- C9 witness: a wall move (into the border of the bundled first level) is
rejected with the position unchanged. -/
theorem movePlayer_rejects_witness :
    (movePlayer ⟨level1.maze, ⟨1, 1⟩, 0, GameState.playing⟩ 0 (-1) 1000).moved = false ∧
    (movePlayer ⟨level1.maze, ⟨1, 1⟩, 0, GameState.playing⟩ 0 (-1) 1000).playerPos
      = ⟨1, 1⟩ :=
  movePlayer_rejects ⟨level1.maze, ⟨1, 1⟩, 0, GameState.playing⟩ 0 (-1) 1000
    (Or.inr (Or.inr (Or.inl (by decide))))

/-- C10: the bundled levels 1 and 2 declare exactly as many collectibles as
their mazes contain, but level 3 declares 5 while its maze holds only 4
collectible cells: since canExitLevel requires collectedItems to reach the
declared count, level 3 can never be completed. -/
theorem level3_collectible_mismatch :
    countCells level1.maze CELL_COLLECTIBLE = level1.collectibles ∧
    countCells level2.maze CELL_COLLECTIBLE = level2.collectibles ∧
    countCells level3.maze CELL_COLLECTIBLE = 4 ∧
    level3.collectibles = 5 := by
  refine ⟨?_, ?_, ?_, ?_⟩ <;> rfl

/-- C6 counterexample: with every passable neighbor of (1, 1) recently
visited, the candidate list of getRandomMove is the single cell (1, 2) -
the first passable direction scanned - so the passable neighbor (0, 1) can
never be returned (every returned move is a member of the candidate list,
by getRandomMove_eq_some_mem), refuting that any passable neighbor is
allowed. -/
theorem getRandomMove_allowed_counterexample :
    allPassableRecent pocketMaze ⟨1, 1⟩ pocketHistory = true ∧
    isValidEnemyMove pocketMaze 0 1 = true ∧
    getRandomMoveCandidates pocketMaze ⟨1, 1⟩ pocketHistory = [⟨1, 2⟩] ∧
    (⟨0, 1⟩ : Pos) ∉ getRandomMoveCandidates pocketMaze ⟨1, 1⟩ pocketHistory := by
  refine ⟨by decide, by decide, by decide, by decide⟩

/-- C6 (amended): the anti-oscillation rule never deadlocks: whenever the
enemy has at least one passable cardinal neighbor, getRandomMove returns
some passable cardinal neighbor for every random draw; and when every
passable neighbor is recently visited, at most one candidate (the first
passable direction scanned) remains eligible, rather than every passable
neighbor being allowed. -/
theorem getRandomMove_no_deadlock (maze : Maze) (enemyPos : Pos) (history : List Pos)
    (k : Nat)
    (hex : ∃ d ∈ directions4,
      isValidEnemyMove maze (enemyPos.x + d.x) (enemyPos.y + d.y) = true) :
    (∃ p, getRandomMove maze enemyPos history k = some p ∧
      isValidEnemyMove maze p.x p.y = true ∧
      ∃ d ∈ directions4, p = Pos.mk (enemyPos.x + d.x) (enemyPos.y + d.y)) ∧
    (allPassableRecent maze enemyPos history = true →
      (getRandomMoveCandidates maze enemyPos history).length ≤ 1) := by
  constructor
  · have hne : getRandomMoveCandidates maze enemyPos history ≠ [] :=
      foldl_getRandomMoveStep_ne_nil maze enemyPos history directions4 [] (Or.inr hex)
    have hlen : 0 < (getRandomMoveCandidates maze enemyPos history).length :=
      List.length_pos.mpr hne
    unfold getRandomMove
    rw [if_neg (by omega)]
    cases hg : (getRandomMoveCandidates maze enemyPos history).get?
        (k % (getRandomMoveCandidates maze enemyPos history).length) with
    | none =>
      exfalso
      rw [List.get?_eq_none] at hg
      have := Nat.mod_lt k hlen
      omega
    | some p =>
      have hp : p ∈ getRandomMoveCandidates maze enemyPos history := List.get?_mem hg
      rcases mem_foldl_getRandomMoveStep maze enemyPos history directions4 [] p hp with
        h | ⟨d, hd, hpd, hpv⟩
      · simp at h
      · exact ⟨p, rfl, hpv, d, hd, hpd⟩
  · intro hall
    apply foldl_getRandomMoveStep_len_le_one maze enemyPos history directions4 []
    · intro d hd hv
      have := List.all_eq_true.mp hall d hd
      simp only [Bool.or_eq_true, Bool.not_eq_eq_eq_not, Bool.not_true] at this
      rcases this with h | h
      · rw [hv] at h
        exact absurd h (by simp)
      · exact h
    · simp

/-- C6 witness: the no-deadlock theorem applied at (1, 1) of pocketMaze
with an empty history and draw 0. -/
theorem getRandomMove_no_deadlock_witness :
    (∃ p, getRandomMove pocketMaze ⟨1, 1⟩ [] 0 = some p ∧
      isValidEnemyMove pocketMaze p.x p.y = true ∧
      ∃ d ∈ directions4, p = Pos.mk (1 + d.x) (1 + d.y)) ∧
    (allPassableRecent pocketMaze ⟨1, 1⟩ [] = true →
      (getRandomMoveCandidates pocketMaze ⟨1, 1⟩ []).length ≤ 1) :=
  getRandomMove_no_deadlock pocketMaze ⟨1, 1⟩ [] 0 (by decide)

lemma foldl_removeDeadEndStep_preserves (x y : Int) (l : List Pos) :
    ∀ acc : Maze × Bool,
      (mazeGet acc.1 x y = CELL_EXIT ∨ mazeGet acc.1 x y = CELL_COLLECTIBLE) →
      mazeGet (l.foldl removeDeadEndStep acc).1 x y = mazeGet acc.1 x y := by
  induction l with
  | nil => intro acc _; rfl
  | cons p l ih =>
    intro acc hv
    simp only [List.foldl_cons]
    by_cases hskip : mazeGet acc.1 p.x p.y = CELL_EXIT ∨
        mazeGet acc.1 p.x p.y = CELL_COLLECTIBLE
    · have hstep : removeDeadEndStep acc p = acc := by
        unfold removeDeadEndStep
        rw [if_pos hskip]
      rw [hstep]
      exact ih acc hv
    · have hstep : removeDeadEndStep acc p =
          (mazeSet acc.1 p.x p.y CELL_WALL, true) := by
        unfold removeDeadEndStep
        rw [if_neg hskip]
      have hne : x ≠ p.x ∨ y ≠ p.y := by
        by_contra hc
        push_neg at hc
        rw [hc.1, hc.2] at hv
        exact hskip hv
      have hpr : mazeGet (mazeSet acc.1 p.x p.y CELL_WALL) x y = mazeGet acc.1 x y :=
        mazeGet_mazeSet_ne acc.1 p.x p.y CELL_WALL x y hne
      rw [hstep]
      rw [ih (mazeSet acc.1 p.x p.y CELL_WALL, true) (by dsimp only; rw [hpr]; exact hv)]
      exact hpr

/-- C7: removeDeadEnds never converts an Exit or a Collectible cell into a
wall: every such cell of the input keeps exactly its kind at its position
in the output, even when it is a degree-1 dead end. -/
theorem removeDeadEnds_preserves_special (maze : Maze) (x y : Int)
    (h : mazeGet maze x y = CELL_EXIT ∨ mazeGet maze x y = CELL_COLLECTIBLE) :
    mazeGet (removeDeadEnds maze) x y = mazeGet maze x y := by
  have main : ∀ m : Maze,
      (mazeGet m x y = CELL_EXIT ∨ mazeGet m x y = CELL_COLLECTIBLE) →
      mazeGet (removeDeadEndsLoop m) x y = mazeGet m x y := by
    intro m
    induction m using removeDeadEndsLoop.induct with
    | case1 m hcond ih =>
      intro hv
      unfold removeDeadEndsLoop
      rw [dif_pos hcond]
      have hpass := foldl_removeDeadEndStep_preserves x y (findDeadEnds m) (m, false) hv
      rw [ih (by rw [hpass]; exact hv), hpass]
    | case2 m hcond =>
      intro hv
      unfold removeDeadEndsLoop
      rw [dif_neg hcond]
      exact foldl_removeDeadEndStep_preserves x y (findDeadEnds m) (m, false) hv
  exact main maze h

/-- C7 witness: the exit cell (7, 7) of the bundled first level survives
removeDeadEnds with its kind intact. -/
theorem removeDeadEnds_preserves_special_witness :
    (mazeGet level1.maze 7 7 = CELL_EXIT ∨ mazeGet level1.maze 7 7 = CELL_COLLECTIBLE) ∧
    mazeGet (removeDeadEnds level1.maze) 7 7 = mazeGet level1.maze 7 7 :=
  ⟨Or.inl (by decide), removeDeadEnds_preserves_special level1.maze 7 7
    (Or.inl (by decide))⟩

lemma reachAvoidN_start_notMem (maze : Maze) (visited : List Pos) (a b : Pos) (k : Nat)
    (h : ReachAvoidN maze visited a b k) : a ∉ visited := by
  induction h with
  | refl hp => exact hp
  | step b c k hr hs hc ih => exact ih

lemma reachAvoidN_end_notMem (maze : Maze) (visited : List Pos) (a b : Pos) (k : Nat)
    (h : ReachAvoidN maze visited a b k) : b ∉ visited := by
  cases h with
  | refl hp => exact hp
  | step b c k hr hs hc => exact hc

lemma reachAvoidN_trans (maze : Maze) (visited : List Pos) (a b c : Pos) (k1 k2 : Nat)
    (h1 : ReachAvoidN maze visited a b k1) (h2 : ReachAvoidN maze visited b c k2) :
    ReachAvoidN maze visited a c (k1 + k2) := by
  induction h2 with
  | refl hp => exact h1
  | step y z k hr hs hc ih => exact ReachAvoidN.step a y z (k1 + k) ih hs hc

lemma reachAvoidN_extend (maze : Maze) (visited : List Pos) (v0 : Pos)
    (hv0 : v0 ∉ visited) (v u : Pos) (k : Nat) (h : ReachAvoidN maze visited v u k) :
    ReachAvoidN maze (v0 :: visited) v u k ∨ u = v0 ∨
    ∃ w j, stepOK maze v0 w ∧ ReachAvoidN maze (v0 :: visited) w u j ∧ j + 1 ≤ k := by
  induction h with
  | refl hp =>
    by_cases hpv : v = v0
    · exact Or.inr (Or.inl hpv)
    · refine Or.inl (ReachAvoidN.refl v ?_)
      simp only [List.mem_cons, not_or]
      exact ⟨hpv, hp⟩
  | step b c k hr hs hc ih =>
    by_cases hcv : c = v0
    · exact Or.inr (Or.inl hcv)
    · have hcv' : c ∉ v0 :: visited := by
        simp only [List.mem_cons, not_or]
        exact ⟨hcv, hc⟩
      rcases ih with h1 | h2 | ⟨w, j, hw1, hw2, hw3⟩
      · exact Or.inl (ReachAvoidN.step v b c k h1 hs hcv')
      · subst h2
        exact Or.inr (Or.inr ⟨c, 0, hs, ReachAvoidN.refl c hcv', by omega⟩)
      · exact Or.inr (Or.inr
          ⟨w, j + 1, hw1, ReachAvoidN.step w b c j hw2 hs hcv', by omega⟩)

lemma solvableNeighbors_complete (maze : Maze) (current : Pos) (visited : List Pos)
    (w : Pos) (hs : stepOK maze current w) (hw : w ∉ current :: visited) :
    w ∈ solvableNeighbors maze current visited := by
  obtain ⟨⟨d, hd, hwd⟩, hinb, hwall⟩ := hs
  subst hwd
  unfold solvableNeighbors
  rw [List.mem_filterMap]
  refine ⟨d, hd, ?_⟩
  rw [if_pos ⟨hinb, hw, hwall⟩]

lemma isMazeSolvableLoop_complete (maze : Maze) (exitPos : Pos) :
    ∀ (queue visited : List Pos),
      (∃ v ∈ queue, ∃ k, ReachAvoidN maze visited v exitPos k) →
      isMazeSolvableLoop maze exitPos queue visited = true := by
  intro queue visited
  induction queue, visited using isMazeSolvableLoop.induct maze exitPos with
  | case1 visited =>
    intro h
    obtain ⟨v, hv, _⟩ := h
    simp at hv
  | case2 visited current rest hvis ih =>
    intro h
    unfold isMazeSolvableLoop
    rw [if_pos hvis]
    apply ih
    obtain ⟨v, hv, k, hk⟩ := h
    have hvnot : v ∉ visited := reachAvoidN_start_notMem maze visited v exitPos k hk
    have hvc : v ≠ current := fun hc => hvnot (hc ▸ hvis)
    refine ⟨v, ?_, k, hk⟩
    rcases List.mem_cons.mp hv with hh | hh
    · exact absurd hh hvc
    · exact hh
  | case3 visited current rest hvis hexit =>
    intro _
    unfold isMazeSolvableLoop
    rw [if_neg hvis, if_pos hexit]
  | case4 visited current rest hvis hexit ih =>
    intro h
    unfold isMazeSolvableLoop
    rw [if_neg hvis, if_neg hexit]
    apply ih
    obtain ⟨v, hv, k, hk⟩ := h
    rcases reachAvoidN_extend maze visited current hvis v exitPos k hk with
      h1 | h2 | ⟨w, j, hw1, hw2, _⟩
    · have hvn : v ∉ current :: visited :=
        reachAvoidN_start_notMem maze (current :: visited) v exitPos k h1
      have hvc : v ≠ current := by
        simp only [List.mem_cons, not_or] at hvn
        exact hvn.1
      refine ⟨v, ?_, k, h1⟩
      rcases List.mem_cons.mp hv with hh | hh
      · exact absurd hh hvc
      · exact List.mem_append.mpr (Or.inl hh)
    · exfalso
      apply hexit
      rw [h2]
      exact ⟨rfl, rfl⟩
    · have hwn : w ∉ current :: visited :=
        reachAvoidN_start_notMem maze (current :: visited) w exitPos j hw2
      refine ⟨w, List.mem_append.mpr (Or.inr ?_), j, hw2⟩
      exact solvableNeighbors_complete maze current visited w hw1 hwn

lemma isMazeSolvable_of_reach (maze : Maze) (start exitPos : Pos)
    (hs : isInBounds start.x start.y maze = true)
    (he : isInBounds exitPos.x exitPos.y maze = true)
    (hr : Reach maze start exitPos) : isMazeSolvable maze start exitPos = true := by
  unfold isMazeSolvable
  rw [if_neg (by simp [hs, he])]
  obtain ⟨k, hk⟩ := hr
  exact isMazeSolvableLoop_complete maze exitPos [start] []
    ⟨start, List.mem_singleton.mpr rfl, k, hk⟩

lemma isValidPosition_iff (maze : Maze) (x y : Int) :
    isValidPosition x y maze = true ↔
    (isInBounds x y maze = true ∧ mazeGet maze x y ≠ CELL_WALL) := by
  unfold isValidPosition
  by_cases hb : isInBounds x y maze = true
  · rw [if_neg (by simp [hb])]
    simp [hb, bne_iff_ne]
  · rw [if_pos (by simp [Bool.not_eq_true] at hb ⊢; exact hb)]
    simp [hb]

lemma stepOK_of_adjacent (maze : Maze) (pos p : Pos)
    (hp : p ∈ getAdjacentPositions pos maze) : stepOK maze pos p := by
  obtain ⟨hd, hval⟩ := getAdjacentPositions_mem maze pos p hp
  have hv := (isValidPosition_iff maze p.x p.y).mp hval
  exact ⟨hd, hv.1, hv.2⟩

lemma adjacent_of_stepOK (maze : Maze) (pos p : Pos) (hs : stepOK maze pos p) :
    p ∈ getAdjacentPositions pos maze := by
  obtain ⟨⟨d, hd, hpd⟩, hinb, hwall⟩ := hs
  unfold getAdjacentPositions
  rw [List.mem_filter]
  constructor
  · rw [List.mem_map]
    exact ⟨d, hd, hpd.symm⟩
  · exact (isValidPosition_iff maze p.x p.y).mpr ⟨hinb, hwall⟩

lemma list_pairwise_of_forall {α : Type} (R : α → α → Prop) (l : List α)
    (h : ∀ a b, R a b) : List.Pairwise R l := by
  induction l with
  | nil => exact List.Pairwise.nil
  | cons a l ih => exact List.Pairwise.cons (fun b _ => h a b) ih

lemma validPathList_length_pos (maze : Maze) (s g : Pos) (p : List Pos)
    (h : ValidPathList maze s g p) : 0 < p.length := by
  obtain ⟨hh, _, _, _⟩ := h
  obtain ⟨t, rfl⟩ := List.head?_eq_some_iff.mp hh
  simp

lemma validPathList_singleton (maze : Maze) (s : Pos)
    (hs : isValidPosition s.x s.y maze = true) : ValidPathList maze s s [s] :=
  ⟨rfl, rfl, List.chain'_singleton s, hs⟩

lemma validPathList_append (maze : Maze) (s v w : Pos) (p : List Pos)
    (h : ValidPathList maze s v p) (hs : stepOK maze v w) :
    ValidPathList maze s w (p ++ [w]) := by
  obtain ⟨hh, hl, hc, hv⟩ := h
  refine ⟨?_, List.getLast?_concat p, ?_, hv⟩
  · rw [List.head?_append, hh]
    rfl
  · rw [List.chain'_append]
    refine ⟨hc, List.chain'_singleton w, ?_⟩
    intro x hx y hy
    rw [hl] at hx
    simp only [Option.mem_def, Option.some_inj] at hx
    simp only [List.head?_cons, Option.mem_def, Option.some_inj] at hy
    rw [← hx, ← hy]
    exact hs

lemma chain'_reachAvoidN (maze : Maze) :
    ∀ (l : List Pos) (a : Pos), List.Chain' (stepOK maze) (a :: l) →
      ReachAvoidN maze [] a ((a :: l).getLast (List.cons_ne_nil a l)) l.length := by
  intro l
  induction l with
  | nil =>
    intro a _
    exact ReachAvoidN.refl a (by simp)
  | cons b l ih =>
    intro a hc
    rw [List.chain'_cons] at hc
    have h1 : ReachAvoidN maze [] a b 1 :=
      ReachAvoidN.step a a b 0 (ReachAvoidN.refl a (by simp)) hc.1 (by simp)
    have h2 := ih b hc.2
    have h3 := reachAvoidN_trans maze [] a b _ 1 l.length h1 h2
    rw [List.getLast_cons (List.cons_ne_nil b l)]
    have hlen : (1 : Nat) + l.length = (b :: l).length := by
      simp [Nat.add_comm]
    rw [← hlen]
    exact h3

lemma validPathList_to_reach (maze : Maze) (s g : Pos) (q : List Pos)
    (h : ValidPathList maze s g q) : ReachAvoidN maze [] s g (q.length - 1) := by
  obtain ⟨hh, hl, hc, _⟩ := h
  obtain ⟨t, rfl⟩ := List.head?_eq_some_iff.mp hh
  have hne : (s :: t) ≠ [] := List.cons_ne_nil s t
  have hg : (s :: t).getLast hne = g := by
    have he := List.getLast?_eq_getLast (s :: t) hne
    rw [he] at hl
    exact Option.some_inj.mp hl
  have hAux := chain'_reachAvoidN maze t s hc
  rw [hg] at hAux
  simpa using hAux

lemma findPathLoop_spec (maze : Maze) (start goal : Pos) :
    ∀ (queue : List (Pos × List Pos)) (visited : List Pos),
      (∀ e ∈ queue, ValidPathList maze start e.1 e.2) →
      List.Pairwise (fun (e1 e2 : Pos × List Pos) => e1.2.length ≤ e2.2.length) queue →
      (∀ h0, queue.head? = some h0 → ∀ e ∈ queue, e.2.length ≤ h0.2.length + 1) →
      (∀ q, ValidPathList maze start goal q →
        ∃ e ∈ queue, ∃ k, ReachAvoidN maze visited e.1 goal k ∧
          e.2.length + k ≤ q.length) →
      ((∀ p, findPathLoop maze goal queue visited = some p →
          ValidPathList maze start goal p ∧
          ∀ q, ValidPathList maze start goal q → p.length ≤ q.length) ∧
        (findPathLoop maze goal queue visited = none →
          ∀ q, ¬ ValidPathList maze start goal q)) := by
  intro queue visited
  induction queue, visited using findPathLoop.induct maze goal with
  | case1 visited =>
    intro _ _ _ h4
    constructor
    · intro p hp
      rw [findPathLoop] at hp
      cases hp
    · intro _ q hq
      obtain ⟨e, he, _⟩ := h4 q hq
      simp at he
  | case2 visited pos path rest hvis ih =>
    intro h1 h2 h3 h4
    have heq : findPathLoop maze goal ((pos, path) :: rest) visited =
        findPathLoop maze goal rest visited := by
      rw [findPathLoop]
      rw [if_pos hvis]
    rw [heq]
    apply ih
    · exact fun e he => h1 e (List.mem_cons_of_mem _ he)
    · exact h2.of_cons
    · intro h0 hh0 e he
      have hhd : h0 ∈ rest := by
        obtain ⟨t, ht⟩ := List.head?_eq_some_iff.mp hh0
        rw [ht]
        exact List.mem_cons_self _ _
      have hb : e.2.length ≤ path.length + 1 :=
        h3 (pos, path) List.head?_cons e (List.mem_cons_of_mem _ he)
      have hmin : path.length ≤ h0.2.length := (List.pairwise_cons.mp h2).1 h0 hhd
      omega
    · intro q hq
      obtain ⟨e, he, k, hk, hbound⟩ := h4 q hq
      have hstart : e.1 ∉ visited :=
        reachAvoidN_start_notMem maze visited e.1 goal k hk
      have hne : e ≠ (pos, path) := by
        intro hc
        rw [hc] at hstart
        exact hstart hvis
      refine ⟨e, ?_, k, hk, hbound⟩
      rcases List.mem_cons.mp he with hh | hh
      · exact absurd hh hne
      · exact hh
  | case3 visited pos path rest hvis hgoal =>
    intro h1 h2 h3 h4
    have heq : findPathLoop maze goal ((pos, path) :: rest) visited = some path := by
      rw [findPathLoop]
      rw [if_neg hvis, if_pos hgoal]
    have hpg : pos = goal := by
      obtain ⟨hx, hy⟩ := hgoal
      cases pos
      cases goal
      simp only at hx hy
      rw [hx, hy]
    constructor
    · intro p hp
      rw [heq] at hp
      have hpp : path = p := Option.some_inj.mp hp
      subst hpp
      constructor
      · have hv := h1 (pos, path) (List.mem_cons_self _ _)
        rw [← hpg]
        exact hv
      · intro q hq
        obtain ⟨e, he, k, hk, hbound⟩ := h4 q hq
        have hmin : path.length ≤ e.2.length := by
          rcases List.mem_cons.mp he with hh | hh
          · rw [hh]
          · exact (List.pairwise_cons.mp h2).1 e hh
        omega
    · intro hnone
      rw [heq] at hnone
      cases hnone
  | case4 visited pos path rest hvis hgoal ih =>
    intro h1 h2 h3 h4
    have heq : findPathLoop maze goal ((pos, path) :: rest) visited =
        findPathLoop maze goal
          (rest ++ List.map (fun np => (np, path ++ [np]))
            (List.filter (fun np => decide (np ∉ pos :: visited))
              (getAdjacentPositions pos maze)))
          (pos :: visited) := by
      rw [findPathLoop]
      rw [if_neg hvis, if_neg hgoal]
    rw [heq]
    have hpushlen : ∀ e ∈ List.map (fun np => (np, path ++ [np]))
        (List.filter (fun np => decide (np ∉ pos :: visited))
          (getAdjacentPositions pos maze)),
        e.2.length = path.length + 1 := by
      intro e he
      rw [List.mem_map] at he
      obtain ⟨np, _, rfl⟩ := he
      simp [List.length_append]
    apply ih
    · intro e he
      rcases List.mem_append.mp he with hh | hh
      · exact h1 e (List.mem_cons_of_mem _ hh)
      · rw [List.mem_map] at hh
        obtain ⟨np, hnp, rfl⟩ := hh
        rw [List.mem_filter] at hnp
        have hstep : stepOK maze pos np := stepOK_of_adjacent maze pos np hnp.1
        exact validPathList_append maze start pos np path
          (h1 (pos, path) (List.mem_cons_self _ _)) hstep
    · rw [List.pairwise_append]
      refine ⟨h2.of_cons, ?_, ?_⟩
      · rw [List.pairwise_map]
        apply list_pairwise_of_forall
        intro a b
        simp [List.length_append]
      · intro e1 he1 e2 he2
        have hb : e1.2.length ≤ path.length + 1 :=
          h3 (pos, path) List.head?_cons e1 (List.mem_cons_of_mem _ he1)
        rw [hpushlen e2 he2]
        omega
    · intro h0 hh0 e he
      have hememb : e.2.length ≤ path.length + 1 := by
        rcases List.mem_append.mp he with hh | hh
        · have hb : e.2.length ≤ path.length + 1 :=
            h3 (pos, path) List.head?_cons e (List.mem_cons_of_mem _ hh)
          exact hb
        · rw [hpushlen e hh]
      cases hrest : rest with
      | nil =>
        have hh0' : h0 ∈ List.map (fun np => (np, path ++ [np]))
            (List.filter (fun np => decide (np ∉ pos :: visited))
              (getAdjacentPositions pos maze)) := by
          rw [hrest] at hh0
          simp only [List.nil_append] at hh0
          obtain ⟨t, ht⟩ := List.head?_eq_some_iff.mp hh0
          rw [ht]
          exact List.mem_cons_self _ _
        rw [hpushlen h0 hh0']
        omega
      | cons r0 rt =>
        have hh0' : h0 = r0 := by
          rw [hrest] at hh0
          rw [List.cons_append, List.head?_cons] at hh0
          exact (Option.some_inj.mp hh0).symm
        have hr0 : r0 ∈ rest := by
          rw [hrest]
          exact List.mem_cons_self _ _
        have hmin : path.length ≤ r0.2.length := (List.pairwise_cons.mp h2).1 r0 hr0
        rw [hh0']
        omega
    · intro q hq
      obtain ⟨e, he, k, hk, hbound⟩ := h4 q hq
      have hpg : goal ≠ pos := by
        intro hc
        apply hgoal
        rw [← hc]
        exact ⟨rfl, rfl⟩
      rcases reachAvoidN_extend maze visited pos hvis e.1 goal k hk with
        hA | hB | ⟨w, j, hw1, hw2, hw3⟩
      · have hstart : e.1 ∉ pos :: visited :=
          reachAvoidN_start_notMem maze (pos :: visited) e.1 goal k hA
        have hne : e ≠ (pos, path) := by
          intro hc
          apply hstart
          rw [hc]
          exact List.mem_cons_self _ _
        refine ⟨e, ?_, k, hA, hbound⟩
        rcases List.mem_cons.mp he with hh | hh
        · exact absurd hh hne
        · exact List.mem_append.mpr (Or.inl hh)
      · exact absurd hB hpg
      · have hwn : w ∉ pos :: visited :=
          reachAvoidN_start_notMem maze (pos :: visited) w goal j hw2
        have hwmem : (w, path ++ [w]) ∈ List.map (fun np => (np, path ++ [np]))
            (List.filter (fun np => decide (np ∉ pos :: visited))
              (getAdjacentPositions pos maze)) := by
          rw [List.mem_map]
          refine ⟨w, ?_, rfl⟩
          rw [List.mem_filter]
          exact ⟨adjacent_of_stepOK maze pos w hw1, by simpa using hwn⟩
        have hmin : path.length ≤ e.2.length := by
          rcases List.mem_cons.mp he with hh | hh
          · rw [hh]
          · exact (List.pairwise_cons.mp h2).1 e hh
        refine ⟨(w, path ++ [w]), List.mem_append.mpr (Or.inr hwmem), j, hw2, ?_⟩
        simp only [List.length_append, List.length_singleton]
        omega

/-- C4: for valid (in-bounds, non-wall) start and goal, findPath returns a
valid cardinal-step walk from start to goal of minimum hop count whenever
some such walk exists, and none when none exists; the search is a total
function (it terminates on every grid, cycles included, by the decreasing
visited-set measure of its definition). -/
theorem findPath_correct (maze : Maze) (start goal : Pos)
    (hs : isValidPosition start.x start.y maze = true)
    (hg : isValidPosition goal.x goal.y maze = true) :
    ((∃ q, ValidPathList maze start goal q) →
      ∃ p, findPath start goal maze = some p ∧ ValidPathList maze start goal p ∧
        ∀ q, ValidPathList maze start goal q → p.length ≤ q.length) ∧
    ((∀ q, ¬ ValidPathList maze start goal q) → findPath start goal maze = none) := by
  have hspec := findPathLoop_spec maze start goal [(start, [start])] []
    (by
      intro e he
      simp only [List.mem_singleton] at he
      rw [he]
      exact validPathList_singleton maze start hs)
    (List.pairwise_singleton _ _)
    (by
      intro h0 hh0 e he
      simp only [List.head?_cons, Option.some_inj] at hh0
      simp only [List.mem_singleton] at he
      rw [he, ← hh0]
      show ([start] : List Pos).length ≤ ([start] : List Pos).length + 1
      omega)
    (by
      intro q hq
      refine ⟨(start, [start]), List.mem_singleton.mpr rfl, q.length - 1,
        validPathList_to_reach maze start goal q hq, ?_⟩
      have hqp := validPathList_length_pos maze start goal q hq
      show ([start] : List Pos).length + (q.length - 1) ≤ q.length
      simp only [List.length_singleton]
      omega)
  unfold findPath
  rw [if_neg (by simp [hs, hg])]
  constructor
  · intro hex
    obtain ⟨q, hq⟩ := hex
    cases hloop : findPathLoop maze goal [(start, [start])] [] with
    | none => exact absurd hq (hspec.2 hloop q)
    | some p => exact ⟨p, rfl, (hspec.1 p hloop).1, (hspec.1 p hloop).2⟩
  · intro hnone
    cases hloop : findPathLoop maze goal [(start, [start])] [] with
    | some p => exact absurd (hspec.1 p hloop).1 (hnone p)
    | none => rfl

/-- C4 witness: the theorem applied to a 3-cell corridor with start (0, 0)
and goal (2, 0); the corridor itself witnesses reachability. -/
theorem findPath_correct_witness :
    ((∃ q, ValidPathList [[0, 0, 0]] ⟨0, 0⟩ ⟨2, 0⟩ q) →
      ∃ p, findPath ⟨0, 0⟩ ⟨2, 0⟩ [[0, 0, 0]] = some p ∧
        ValidPathList [[0, 0, 0]] ⟨0, 0⟩ ⟨2, 0⟩ p ∧
        ∀ q, ValidPathList [[0, 0, 0]] ⟨0, 0⟩ ⟨2, 0⟩ q → p.length ≤ q.length) ∧
    ((∀ q, ¬ ValidPathList [[0, 0, 0]] ⟨0, 0⟩ ⟨2, 0⟩ q) →
      findPath ⟨0, 0⟩ ⟨2, 0⟩ [[0, 0, 0]] = none) :=
  findPath_correct [[0, 0, 0]] ⟨0, 0⟩ ⟨2, 0⟩ (by decide) (by decide)

lemma headD_eq_getD {α : Type} (l : List α) (d : α) : l.headD d = l.getD 0 d := by
  cases l <;> rfl

lemma isInBounds_mazeSet (maze : Maze) (x y : Int) (v : Nat) (a b : Int) :
    isInBounds a b (mazeSet maze x y v) = isInBounds a b maze := by
  unfold isInBounds
  rw [mazeSet_length, headD_eq_getD, headD_eq_getD, mazeSet_row_length]

lemma mem_of_mem_set {α : Type} (l : List α) (j : Nat) (a row : α)
    (h : row ∈ l.set j a) : row ∈ l ∨ (row = a ∧ j < l.length) := by
  induction l generalizing j with
  | nil => simp at h
  | cons b l ih =>
    cases j with
    | zero =>
      rw [List.set_cons_zero] at h
      rcases List.mem_cons.mp h with hh | hh
      · exact Or.inr ⟨hh, by simp⟩
      · exact Or.inl (List.mem_cons_of_mem _ hh)
    | succ j =>
      rw [List.set_cons_succ] at h
      rcases List.mem_cons.mp h with hh | hh
      · exact Or.inl (hh ▸ List.mem_cons_self _ _)
      · rcases ih j hh with hh2 | hh2
        · exact Or.inl (List.mem_cons_of_mem _ hh2)
        · refine Or.inr ⟨hh2.1, ?_⟩
          have := hh2.2
          simp only [List.length_cons]
          omega

lemma rectGrid_mazeSet (w ht : Int) (maze : Maze) (x y : Int) (v : Nat)
    (h : rectGrid w ht maze) : rectGrid w ht (mazeSet maze x y v) := by
  obtain ⟨hlen, hrows⟩ := h
  constructor
  · rw [mazeSet_length]
    exact hlen
  · intro row hrow
    unfold mazeSet at hrow
    split at hrow
    · rcases mem_of_mem_set _ _ _ _ hrow with hh | hh
      · exact hrows row hh
      · rw [hh.1, List.length_set]
        exact hrows _ (list_getD_mem maze y.toNat [] hh.2)
    · exact hrows row hrow

lemma realIdx_of_isInBounds (w ht : Int) (maze : Maze) (x y : Int)
    (hr : rectGrid w ht maze) (h : isInBounds x y maze = true) :
    realIdx maze x y := by
  obtain ⟨hlen, hrows⟩ := hr
  unfold isInBounds at h
  simp only [Bool.and_eq_true, decide_eq_true_eq] at h
  obtain ⟨⟨⟨hy0, hy⟩, hx0⟩, hx⟩ := h
  have hmne : maze ≠ [] := by
    intro hc
    rw [hc] at hy
    simp at hy
    omega
  have hhead : (maze.headD []).length = w.toNat := by
    cases maze with
    | nil => exact absurd rfl hmne
    | cons r t => exact hrows r (List.mem_cons_self _ _)
  have hyn : y.toNat < maze.length := by omega
  refine ⟨hx0, hy0, hyn, ?_⟩
  have := hrows _ (list_getD_mem maze y.toNat [] hyn)
  rw [this]
  rw [hhead] at hx
  omega

lemma isInBounds_of_inRange (w ht : Int) (maze : Maze) (p : Pos)
    (hr : rectGrid w ht maze) (hp : inRange w ht p) :
    isInBounds p.x p.y maze = true := by
  obtain ⟨hlen, hrows⟩ := hr
  obtain ⟨hx0, hxw, hy0, hyh⟩ := hp
  have hh3 : 3 ≤ ht := by omega
  have hw3 : 3 ≤ w := by omega
  have hmne : maze ≠ [] := by
    intro hc
    rw [hc] at hlen
    simp at hlen
    omega
  have hhead : (maze.headD []).length = w.toNat := by
    cases maze with
    | nil => exact absurd rfl hmne
    | cons r t => exact hrows r (List.mem_cons_self _ _)
  unfold isInBounds
  simp only [Bool.and_eq_true, decide_eq_true_eq]
  rw [hhead, hlen]
  omega

lemma realIdx_of_inRange (w ht : Int) (maze : Maze) (p : Pos)
    (hr : rectGrid w ht maze) (hp : inRange w ht p) : realIdx maze p.x p.y :=
  realIdx_of_isInBounds w ht maze p.x p.y hr (isInBounds_of_inRange w ht maze p hr hp)

lemma mazeGet_replicate (n k : Nat) (x y : Int)
    (hr : realIdx (List.replicate n (List.replicate k CELL_WALL)) x y) :
    mazeGet (List.replicate n (List.replicate k CELL_WALL)) x y = CELL_WALL := by
  obtain ⟨hx0, hy0, hy, hx⟩ := hr
  rw [List.length_replicate] at hy
  have hrow : (List.replicate n (List.replicate k CELL_WALL)).getD y.toNat [] =
      List.replicate k CELL_WALL := by
    rw [List.getD_eq_getElem _ _ (by rw [List.length_replicate]; exact hy)]
    exact List.getElem_replicate _ _
  rw [hrow, List.length_replicate] at hx
  unfold mazeGet
  rw [if_pos ⟨hx0, hy0⟩, hrow]
  rw [List.getD_eq_getElem _ _ (by rw [List.length_replicate]; exact hx)]
  exact List.getElem_replicate _ _

lemma reachAvoidN_mono (maze maze' : Maze)
    (hdim : ∀ p : Pos, isInBounds p.x p.y maze = true →
      isInBounds p.x p.y maze' = true)
    (hcell : ∀ p : Pos, isInBounds p.x p.y maze = true →
      mazeGet maze p.x p.y ≠ CELL_WALL → mazeGet maze' p.x p.y ≠ CELL_WALL)
    (visited : List Pos) (a b : Pos) (k : Nat)
    (h : ReachAvoidN maze visited a b k) : ReachAvoidN maze' visited a b k := by
  induction h with
  | refl hp => exact ReachAvoidN.refl _ hp
  | step b c k hr hs hc ih =>
    obtain ⟨hd, hinb, hwall⟩ := hs
    exact ReachAvoidN.step _ b c k ih ⟨hd, hdim c hinb, hcell c hinb hwall⟩ hc

lemma reach_mazeSet (maze : Maze) (x y : Int) (v : Nat) (hv : v ≠ CELL_WALL)
    (s e : Pos) (h : Reach maze s e) : Reach (mazeSet maze x y v) s e := by
  obtain ⟨k, hk⟩ := h
  refine ⟨k, reachAvoidN_mono maze (mazeSet maze x y v) ?_ ?_ [] s e k hk⟩
  · intro p hp
    rw [isInBounds_mazeSet]
    exact hp
  · intro p _ hw
    rcases mazeGet_mazeSet_cases maze x y v p.x p.y with hc | hc
    · rw [hc]
      exact hv
    · rw [hc]
      exact hw

lemma isInBounds_foldl_collect (l : List Pos) :
    ∀ (maze : Maze) (a b : Int),
      isInBounds a b (l.foldl (fun m p => mazeSet m p.x p.y CELL_COLLECTIBLE) maze)
        = isInBounds a b maze := by
  induction l with
  | nil => intro maze a b; rfl
  | cons q l ih =>
    intro maze a b
    simp only [List.foldl_cons]
    rw [ih, isInBounds_mazeSet]

lemma reach_foldl_collect (l : List Pos) :
    ∀ (maze : Maze) (s e : Pos), Reach maze s e →
      Reach (l.foldl (fun m p => mazeSet m p.x p.y CELL_COLLECTIBLE) maze) s e := by
  induction l with
  | nil => intro maze s e h; exact h
  | cons q l ih =>
    intro maze s e h
    simp only [List.foldl_cons]
    exact ih _ s e (reach_mazeSet maze q.x q.y CELL_COLLECTIBLE (by decide) s e h)

lemma carve_geometry (cx cy dx dy : Int)
    (hd : (dx = 0 ∧ dy = -2) ∨ (dx = 2 ∧ dy = 0) ∨ (dx = 0 ∧ dy = 2) ∨
      (dx = -2 ∧ dy = 0))
    (hcx : cx % 2 = 1) (hcy : cy % 2 = 1) :
    ∃ ex ey : Int,
      Pos.mk ex ey ∈ directions4 ∧
      cx + ((cx + dx) - cx) / 2 = cx + ex ∧
      cy + ((cy + dy) - cy) / 2 = cy + ey ∧
      cx + dx = (cx + ex) + ex ∧ cy + dy = (cy + ey) + ey ∧
      (cx + dx) % 2 = 1 ∧ (cy + dy) % 2 = 1 ∧
      ((cx + ex) % 2 = 0 ∨ (cy + ey) % 2 = 0) := by
  rcases hd with ⟨hx, hy⟩ | ⟨hx, hy⟩ | ⟨hx, hy⟩ | ⟨hx, hy⟩ <;> subst hx <;> subst hy
  · exact ⟨0, -1, by decide, by omega, by omega, by omega, by omega, by omega,
      by omega, Or.inr (by omega)⟩
  · exact ⟨1, 0, by decide, by omega, by omega, by omega, by omega, by omega,
      by omega, Or.inl (by omega)⟩
  · exact ⟨0, 1, by decide, by omega, by omega, by omega, by omega, by omega,
      by omega, Or.inr (by omega)⟩
  · exact ⟨-1, 0, by decide, by omega, by omega, by omega, by omega, by omega,
      by omega, Or.inl (by omega)⟩

lemma pos_ext {p q : Pos} (hx : p.x = q.x) (hy : p.y = q.y) : p = q := by
  have h : Pos.mk p.x p.y = Pos.mk q.x q.y := by rw [hx, hy]
  exact h

lemma reach_step (maze : Maze) (a b c : Pos) (h : Reach maze a b)
    (hs : stepOK maze b c) : Reach maze a c := by
  obtain ⟨k, hk⟩ := h
  exact ⟨k + 1, ReachAvoidN.step a b c k hk hs (by simp)⟩

lemma mazeGet_double_path (maze : Maze) (x1 y1 x2 y2 a b : Int)
    (h : mazeGet maze a b = CELL_PATH) :
    mazeGet (mazeSet (mazeSet maze x1 y1 CELL_PATH) x2 y2 CELL_PATH) a b =
      CELL_PATH := by
  rcases mazeGet_mazeSet_cases (mazeSet maze x1 y1 CELL_PATH) x2 y2 CELL_PATH a b
    with h2 | h2
  · exact h2
  · rw [h2]
    rcases mazeGet_mazeSet_cases maze x1 y1 CELL_PATH a b with h3 | h3
    · exact h3
    · rw [h3]
      exact h

lemma mazeGet_double_nonwall (maze : Maze) (x1 y1 x2 y2 a b : Int)
    (h : mazeGet maze a b ≠ CELL_WALL) :
    mazeGet (mazeSet (mazeSet maze x1 y1 CELL_PATH) x2 y2 CELL_PATH) a b ≠
      CELL_WALL := by
  rcases mazeGet_mazeSet_cases (mazeSet maze x1 y1 CELL_PATH) x2 y2 CELL_PATH a b
    with h2 | h2
  · rw [h2]
    decide
  · rw [h2]
    rcases mazeGet_mazeSet_cases maze x1 y1 CELL_PATH a b with h3 | h3
    · rw [h3]
      decide
    · rw [h3]
      exact h

lemma rectGrid_replicate (w ht : Int) :
    rectGrid w ht (List.replicate ht.toNat (List.replicate w.toNat CELL_WALL)) := by
  constructor
  · exact List.length_replicate _ _
  · intro row hrow
    rw [List.eq_of_mem_replicate hrow]
    exact List.length_replicate _ _

lemma oddCoerce_odd (n : Int) : oddCoerce n % 2 = 1 := by
  unfold oddCoerce
  split <;> omega

lemma oddCoerce_ge (n : Int) (h : 2 ≤ n) : 3 ≤ oddCoerce n := by
  unfold oddCoerce
  split <;> omega

lemma isMazeSolvable_exit_left (maze : Maze) (start e : Pos) (h : e.x < 0) :
    isMazeSolvable maze start e = false := by
  have hx : decide (0 ≤ e.x) = false := decide_eq_false (by omega)
  have hb : isInBounds e.x e.y maze = false := by
    unfold isInBounds
    rw [hx, Bool.and_false, Bool.false_and]
  unfold isMazeSolvable
  rw [hb]
  simp

lemma carveInit_inv (w ht : Int) (hw : w % 2 = 1) (hh : ht % 2 = 1)
    (h3w : 3 ≤ w) (h3h : 3 ≤ ht) :
    CarveInv w ht
      (mazeSet (List.replicate ht.toNat (List.replicate w.toNat CELL_WALL))
        1 1 CELL_PATH)
      [Pos.mk 1 1] := by
  have hrect0 := rectGrid_replicate w ht
  have h01 : (0 : Int) < 1 := by omega
  have hxlt : (1 : Int) < w - 1 := by omega
  have hylt : (1 : Int) < ht - 1 := by omega
  have hR11 : inRange w ht (Pos.mk 1 1) := ⟨h01, hxlt, h01, hylt⟩
  have hreal : realIdx (List.replicate ht.toNat (List.replicate w.toNat CELL_WALL))
      1 1 :=
    realIdx_of_inRange w ht _ (Pos.mk 1 1) hrect0 hR11
  have hrect1 : rectGrid w ht
      (mazeSet (List.replicate ht.toNat (List.replicate w.toNat CELL_WALL))
        1 1 CELL_PATH) :=
    rectGrid_mazeSet w ht _ 1 1 CELL_PATH hrect0
  have hstart : mazeGet
      (mazeSet (List.replicate ht.toNat (List.replicate w.toNat CELL_WALL))
        1 1 CELL_PATH) 1 1 = CELL_PATH :=
    mazeGet_mazeSet_self _ 1 1 CELL_PATH hreal
  refine ⟨hrect1, hstart, ?_, ?_, ?_⟩
  · intro p hp
    rw [List.mem_singleton] at hp
    subst hp
    exact ⟨hR11, by decide, by decide, hstart⟩
  · intro p hpR hpx hpy hpw
    by_cases hp1 : p.x = 1 ∧ p.y = 1
    · left
      rw [List.mem_singleton]
      exact pos_ext hp1.1 hp1.2
    · exfalso
      apply hpw
      rw [mazeGet_mazeSet_ne _ 1 1 CELL_PATH p.x p.y (not_and_or.mp hp1)]
      exact mazeGet_replicate ht.toNat w.toNat p.x p.y
        (realIdx_of_inRange w ht _ p hrect0 hpR)
  · intro p hpinb hpw
    by_cases hp1 : p.x = 1 ∧ p.y = 1
    · have hpe : p = Pos.mk 1 1 := pos_ext hp1.1 hp1.2
      rw [hpe]
      exact ⟨0, ReachAvoidN.refl _ (by simp)⟩
    · exfalso
      apply hpw
      rw [mazeGet_mazeSet_ne _ 1 1 CELL_PATH p.x p.y (not_and_or.mp hp1)]
      refine mazeGet_replicate ht.toNat w.toNat p.x p.y
        (realIdx_of_isInBounds w ht _ p.x p.y hrect0 ?_)
      rw [isInBounds_mazeSet] at hpinb
      exact hpinb

lemma carve_pop_inv (w ht : Int) (maze : Maze) (current : Pos) (rest : List Pos)
    (hnil : (carveNeighbors w ht maze current).length = 0)
    (hinv : CarveInv w ht maze (current :: rest)) : CarveInv w ht maze rest := by
  obtain ⟨hrect, hstart, hstack, hB, hC⟩ := hinv
  have hempty : carveNeighbors w ht maze current = [] :=
    List.eq_nil_of_length_eq_zero hnil
  have hnb : ∀ d ∈ carveDirs,
      inRange w ht (Pos.mk (current.x + d.x) (current.y + d.y)) →
      mazeGet maze (current.x + d.x) (current.y + d.y) ≠ CELL_WALL := by
    intro d hd hr hwall
    have hmem : Pos.mk (current.x + d.x) (current.y + d.y) ∈
        carveNeighbors w ht maze current := by
      unfold carveNeighbors
      rw [List.mem_filterMap]
      exact ⟨d, hd, by rw [if_pos ⟨hr.1, hr.2.1, hr.2.2.1, hr.2.2.2, hwall⟩]⟩
    rw [hempty] at hmem
    simp at hmem
  refine ⟨hrect, hstart, fun p hp => hstack p (List.mem_cons_of_mem _ hp), ?_, hC⟩
  intro p hpR hpx hpy hpw
  rcases hB p hpR hpx hpy hpw with hmem | hall
  · rcases List.mem_cons.mp hmem with he | hm
    · right
      rw [he]
      exact hnb
    · left
      exact hm
  · right
    exact hall

lemma carve_push_inv (w ht : Int) (maze : Maze) (current next : Pos)
    (rest : List Pos) (hnext : next ∈ carveNeighbors w ht maze current)
    (hinv : CarveInv w ht maze (current :: rest)) :
    CarveInv w ht
      (mazeSet (mazeSet maze next.x next.y CELL_PATH)
        (current.x + (next.x - current.x) / 2)
        (current.y + (next.y - current.y) / 2) CELL_PATH)
      (next :: current :: rest) := by
  obtain ⟨hrect, hstart, hstack, hB, hC⟩ := hinv
  obtain ⟨⟨d, hd, hnd⟩, hx0, hxw, hy0, hyh, hwallnext⟩ :=
    carveNeighbors_mem w ht maze current next hnext
  obtain ⟨hcurR, hcx2, hcy2, hcurP⟩ := hstack current (List.mem_cons_self _ _)
  have hnx' : next.x = current.x + d.x := by rw [hnd]
  have hny' : next.y = current.y + d.y := by rw [hnd]
  have hd' : (d.x = 0 ∧ d.y = -2) ∨ (d.x = 2 ∧ d.y = 0) ∨ (d.x = 0 ∧ d.y = 2) ∨
      (d.x = -2 ∧ d.y = 0) := by
    simp only [carveDirs, List.mem_cons, List.not_mem_nil, or_false] at hd
    rcases hd with h | h | h | h
    · exact Or.inl ⟨by rw [h], by rw [h]⟩
    · exact Or.inr (Or.inl ⟨by rw [h], by rw [h]⟩)
    · exact Or.inr (Or.inr (Or.inl ⟨by rw [h], by rw [h]⟩))
    · exact Or.inr (Or.inr (Or.inr ⟨by rw [h], by rw [h]⟩))
  obtain ⟨ex, ey, heDir, hmx, hmy, hnx, hny, hnpx, hnpy, hmpar⟩ :=
    carve_geometry current.x current.y d.x d.y hd' hcx2 hcy2
  have hmxe : current.x + (next.x - current.x) / 2 = current.x + ex := by
    rw [hnx']
    exact hmx
  have hmye : current.y + (next.y - current.y) / 2 = current.y + ey := by
    rw [hny']
    exact hmy
  have hnex : next.x = (current.x + ex) + ex := by
    rw [hnx']
    exact hnx
  have hney : next.y = (current.y + ey) + ey := by
    rw [hny']
    exact hny
  have hnx2 : next.x % 2 = 1 := by
    rw [hnx']
    exact hnpx
  have hny2 : next.y % 2 = 1 := by
    rw [hny']
    exact hnpy
  obtain ⟨hc1, hc2, hc3, hc4⟩ := hcurR
  have hmidb : 0 < current.x + ex ∧ current.x + ex < w - 1 ∧
      0 < current.y + ey ∧ current.y + ey < ht - 1 := by
    refine ⟨?_, ?_, ?_, ?_⟩ <;> omega
  have hmidR : inRange w ht (Pos.mk (current.x + ex) (current.y + ey)) :=
    ⟨hmidb.1, hmidb.2.1, hmidb.2.2.1, hmidb.2.2.2⟩
  have hnextR : inRange w ht next := ⟨hx0, hxw, hy0, hyh⟩
  have hmid_ne_next : current.x + ex ≠ next.x ∨ current.y + ey ≠ next.y := by
    rcases hmpar with h | h
    · left
      omega
    · right
      omega
  have hRnext : realIdx maze next.x next.y :=
    realIdx_of_inRange w ht maze next hrect hnextR
  have hRmid1 : realIdx (mazeSet maze next.x next.y CELL_PATH)
      (current.x + ex) (current.y + ey) :=
    (realIdx_mazeSet maze next.x next.y CELL_PATH _ _).mpr
      (realIdx_of_inRange w ht maze (Pos.mk (current.x + ex) (current.y + ey))
        hrect hmidR)
  rw [hmxe, hmye]
  have hM2next : mazeGet
      (mazeSet (mazeSet maze next.x next.y CELL_PATH)
        (current.x + ex) (current.y + ey) CELL_PATH) next.x next.y = CELL_PATH := by
    rw [mazeGet_mazeSet_ne _ _ _ _ next.x next.y
      (hmid_ne_next.imp Ne.symm Ne.symm)]
    exact mazeGet_mazeSet_self maze next.x next.y CELL_PATH hRnext
  have hM2mid : mazeGet
      (mazeSet (mazeSet maze next.x next.y CELL_PATH)
        (current.x + ex) (current.y + ey) CELL_PATH)
      (current.x + ex) (current.y + ey) = CELL_PATH :=
    mazeGet_mazeSet_self _ _ _ _ hRmid1
  have hM2old : ∀ a b : Int, (a ≠ next.x ∨ b ≠ next.y) →
      (a ≠ current.x + ex ∨ b ≠ current.y + ey) →
      mazeGet (mazeSet (mazeSet maze next.x next.y CELL_PATH)
        (current.x + ex) (current.y + ey) CELL_PATH) a b = mazeGet maze a b := by
    intro a b h1 h2
    rw [mazeGet_mazeSet_ne _ _ _ _ a b h2, mazeGet_mazeSet_ne _ _ _ _ a b h1]
  have hrect2 : rectGrid w ht
      (mazeSet (mazeSet maze next.x next.y CELL_PATH)
        (current.x + ex) (current.y + ey) CELL_PATH) :=
    rectGrid_mazeSet w ht _ _ _ _ (rectGrid_mazeSet w ht _ _ _ _ hrect)
  refine ⟨hrect2, ?_, ?_, ?_, ?_⟩
  · exact mazeGet_double_path maze next.x next.y _ _ 1 1 hstart
  · intro p hp
    rcases List.mem_cons.mp hp with he | hp2
    · subst he
      exact ⟨hnextR, hnx2, hny2, hM2next⟩
    · obtain ⟨hR, h2, h3, hPath⟩ := hstack p hp2
      exact ⟨hR, h2, h3, mazeGet_double_path maze next.x next.y _ _ p.x p.y hPath⟩
  · intro p hpR hp2x hp2y hpw
    by_cases hpn : p.x = next.x ∧ p.y = next.y
    · left
      rw [pos_ext hpn.1 hpn.2]
      exact List.mem_cons_self _ _
    · have hpm : p.x ≠ current.x + ex ∨ p.y ≠ current.y + ey := by
        rcases hmpar with h | h
        · left
          omega
        · right
          omega
      have hpw' : mazeGet maze p.x p.y ≠ CELL_WALL := by
        rw [← hM2old p.x p.y (not_and_or.mp hpn) hpm]
        exact hpw
      rcases hB p hpR hp2x hp2y hpw' with hmem | hall
      · exact Or.inl (List.mem_cons_of_mem _ hmem)
      · refine Or.inr ?_
        intro d2 hd2 hr2
        exact mazeGet_double_nonwall maze next.x next.y _ _ _ _ (hall d2 hd2 hr2)
  · intro p hpinb hpw
    have hpinb' : isInBounds p.x p.y maze = true := by
      rw [isInBounds_mazeSet, isInBounds_mazeSet] at hpinb
      exact hpinb
    have hlift : ∀ q : Pos, Reach maze (Pos.mk 1 1) q →
        Reach (mazeSet (mazeSet maze next.x next.y CELL_PATH)
          (current.x + ex) (current.y + ey) CELL_PATH) (Pos.mk 1 1) q := by
      intro q hq
      exact reach_mazeSet _ _ _ CELL_PATH (by decide) _ _
        (reach_mazeSet _ _ _ CELL_PATH (by decide) _ _ hq)
    have hreachC : Reach (mazeSet (mazeSet maze next.x next.y CELL_PATH)
        (current.x + ex) (current.y + ey) CELL_PATH) (Pos.mk 1 1) current :=
      hlift current (hC current
        (isInBounds_of_inRange w ht maze current hrect ⟨hc1, hc2, hc3, hc4⟩)
        (by rw [hcurP]; decide))
    have hstep1 : stepOK (mazeSet (mazeSet maze next.x next.y CELL_PATH)
        (current.x + ex) (current.y + ey) CELL_PATH) current
        (Pos.mk (current.x + ex) (current.y + ey)) :=
      ⟨⟨Pos.mk ex ey, heDir, rfl⟩,
        isInBounds_of_inRange w ht _ _ hrect2 hmidR,
        by rw [hM2mid]; decide⟩
    have hstep2 : stepOK (mazeSet (mazeSet maze next.x next.y CELL_PATH)
        (current.x + ex) (current.y + ey) CELL_PATH)
        (Pos.mk (current.x + ex) (current.y + ey)) next :=
      ⟨⟨Pos.mk ex ey, heDir, pos_ext hnex hney⟩,
        isInBounds_of_inRange w ht _ next hrect2 hnextR,
        by rw [hM2next]; decide⟩
    have hreachMid := reach_step _ _ _ _ hreachC hstep1
    have hreachNext := reach_step _ _ _ _ hreachMid hstep2
    by_cases hpn : p.x = next.x ∧ p.y = next.y
    · rw [pos_ext hpn.1 hpn.2]
      exact hreachNext
    · by_cases hpm : p.x = current.x + ex ∧ p.y = current.y + ey
      · rw [pos_ext (q := Pos.mk (current.x + ex) (current.y + ey)) hpm.1 hpm.2]
        exact hreachMid
      · have hpw' : mazeGet maze p.x p.y ≠ CELL_WALL := by
          rw [← hM2old p.x p.y (not_and_or.mp hpn) (not_and_or.mp hpm)]
          exact hpw
        exact hlift p (hC p hpinb' hpw')

lemma carveLoop_inv (w ht : Int) (oracle : Nat → Nat) :
    ∀ (step : Nat) (maze : Maze) (stack : List Pos),
      CarveInv w ht maze stack →
      CarveInv w ht (carveLoop w ht oracle step maze stack) [] := by
  intro step maze stack
  induction step, maze, stack using carveLoop.induct w ht oracle with
  | case1 step maze =>
    intro h
    unfold carveLoop
    exact h
  | case2 step maze current rest hne ih =>
    intro h
    unfold carveLoop
    rw [if_pos hne]
    exact ih (carve_push_inv w ht maze current _ rest
      (carveNext_mem w ht oracle step maze current hne) h)
  | case3 step maze current rest hne ih =>
    intro h
    unfold carveLoop
    rw [if_neg hne]
    exact ih (carve_pop_inv w ht maze current rest (not_not.mp hne) h)

lemma lattice_fill (w ht : Int) (M : Maze) (h3w : 3 ≤ w) (h3h : 3 ≤ ht)
    (hinv : CarveInv w ht M []) (p : Pos) (hpR : inRange w ht p)
    (hpx : p.x % 2 = 1) (hpy : p.y % 2 = 1) :
    mazeGet M p.x p.y ≠ CELL_WALL := by
  obtain ⟨hrect, hstart, _, hB, _⟩ := hinv
  have hB' : ∀ x y : Int, 0 < x → x < w - 1 → 0 < y → y < ht - 1 →
      x % 2 = 1 → y % 2 = 1 → mazeGet M x y ≠ CELL_WALL →
      ∀ dx dy : Int, Pos.mk dx dy ∈ carveDirs →
      0 < x + dx → x + dx < w - 1 → 0 < y + dy → y + dy < ht - 1 →
      mazeGet M (x + dx) (y + dy) ≠ CELL_WALL := by
    intro x y h1 h2 h3 h4 hx2 hy2 hnw dx dy hdm b1 b2 b3 b4
    rcases hB (Pos.mk x y) ⟨h1, h2, h3, h4⟩ hx2 hy2 hnw with hmem | hall
    · simp at hmem
    · exact hall (Pos.mk dx dy) hdm ⟨b1, b2, b3, b4⟩
  have hcol : ∀ b : Nat, (1 + 2 * (b : Int)) < ht - 1 →
      mazeGet M 1 (1 + 2 * (b : Int)) ≠ CELL_WALL := by
    intro b
    induction b with
    | zero =>
      intro _
      simp only [Nat.cast_zero, mul_zero, add_zero]
      rw [hstart]
      decide
    | succ b ih =>
      intro hlt
      have hcast : ((b + 1 : Nat) : Int) = (b : Int) + 1 := by push_cast; ring
      rw [hcast] at hlt
      have hprev := ih (by omega)
      rw [hcast, show (1 : Int) + 2 * ((b : Int) + 1) = (1 + 2 * (b : Int)) + 2
        from by ring]
      have hres := hB' 1 (1 + 2 * (b : Int)) (by omega) (by omega) (by omega)
        (by omega) (by omega) (by omega) hprev 0 2 (by decide)
        (by omega) (by omega) (by omega) (by omega)
      rw [add_zero] at hres
      exact hres
  have hrow : ∀ a b : Nat, (1 + 2 * (a : Int)) < w - 1 →
      (1 + 2 * (b : Int)) < ht - 1 →
      mazeGet M (1 + 2 * (a : Int)) (1 + 2 * (b : Int)) ≠ CELL_WALL := by
    intro a
    induction a with
    | zero =>
      intro b _ h2
      simp only [Nat.cast_zero, mul_zero, add_zero]
      exact hcol b h2
    | succ a ih =>
      intro b hlt h2
      have hcast : ((a + 1 : Nat) : Int) = (a : Int) + 1 := by push_cast; ring
      rw [hcast] at hlt
      have hprev := ih b (by omega) h2
      rw [hcast, show (1 : Int) + 2 * ((a : Int) + 1) = (1 + 2 * (a : Int)) + 2
        from by ring]
      have hres := hB' (1 + 2 * (a : Int)) (1 + 2 * (b : Int)) (by omega)
        (by omega) (by omega) (by omega) (by omega) (by omega) hprev 2 0
        (by decide) (by omega) (by omega) (by omega) (by omega)
      rw [add_zero] at hres
      exact hres
  obtain ⟨h1, h2, h3, h4⟩ := hpR
  have ha : p.x = 1 + 2 * ((((p.x - 1) / 2).toNat : Nat) : Int) := by omega
  have hb : p.y = 1 + 2 * ((((p.y - 1) / 2).toNat : Nat) : Int) := by omega
  rw [ha, hb]
  exact hrow ((p.x - 1) / 2).toNat ((p.y - 1) / 2).toNat (by omega) (by omega)

lemma generated_solvable_aux (w ht : Int) (oracle : Nat → Nat) (l : List Pos)
    (hwodd : w % 2 = 1) (hhodd : ht % 2 = 1) (hw3 : 3 ≤ w) (hh3 : 3 ≤ ht) :
    isMazeSolvable
      (l.foldl (fun m p => mazeSet m p.x p.y CELL_COLLECTIBLE)
        (mazeSet (carveLoop w ht oracle 0
          (mazeSet (List.replicate ht.toNat (List.replicate w.toNat CELL_WALL))
            1 1 CELL_PATH)
          [Pos.mk 1 1]) (w - 2) (ht - 2) CELL_EXIT))
      (Pos.mk 1 1) (Pos.mk (w - 2) (ht - 2)) = true := by
  have hinv := carveLoop_inv w ht oracle 0 _ _
    (carveInit_inv w ht hwodd hhodd hw3 hh3)
  have h01 : (0 : Int) < 1 := by omega
  have hxlt : (1 : Int) < w - 1 := by omega
  have hylt : (1 : Int) < ht - 1 := by omega
  have hstartR : inRange w ht (Pos.mk 1 1) := ⟨h01, hxlt, h01, hylt⟩
  have he1 : (0 : Int) < w - 2 := by omega
  have he2 : w - 2 < w - 1 := by omega
  have he3 : (0 : Int) < ht - 2 := by omega
  have he4 : ht - 2 < ht - 1 := by omega
  have hexR : inRange w ht (Pos.mk (w - 2) (ht - 2)) := ⟨he1, he2, he3, he4⟩
  have hep1 : (w - 2) % 2 = 1 := by omega
  have hep2 : (ht - 2) % 2 = 1 := by omega
  have hexNW : mazeGet (carveLoop w ht oracle 0
      (mazeSet (List.replicate ht.toNat (List.replicate w.toNat CELL_WALL))
        1 1 CELL_PATH) [Pos.mk 1 1]) (w - 2) (ht - 2) ≠ CELL_WALL :=
    lattice_fill w ht _ hw3 hh3 hinv (Pos.mk (w - 2) (ht - 2)) hexR hep1 hep2
  have hreach0 : Reach (carveLoop w ht oracle 0
      (mazeSet (List.replicate ht.toNat (List.replicate w.toNat CELL_WALL))
        1 1 CELL_PATH) [Pos.mk 1 1]) (Pos.mk 1 1) (Pos.mk (w - 2) (ht - 2)) :=
    hinv.2.2.2.2 (Pos.mk (w - 2) (ht - 2))
      (isInBounds_of_inRange w ht _ _ hinv.1 hexR) hexNW
  have hreach1 := reach_mazeSet _ (w - 2) (ht - 2) CELL_EXIT (by decide) _ _ hreach0
  have hreach2 := reach_foldl_collect l _ (Pos.mk 1 1) (Pos.mk (w - 2) (ht - 2))
    hreach1
  refine isMazeSolvable_of_reach _ (Pos.mk 1 1) (Pos.mk (w - 2) (ht - 2)) ?_ ?_
    hreach2
  · rw [isInBounds_foldl_collect, isInBounds_mazeSet]
    exact isInBounds_of_inRange w ht _ (Pos.mk 1 1) hinv.1 hstartR
  · rw [isInBounds_foldl_collect, isInBounds_mazeSet]
    exact isInBounds_of_inRange w ht _ (Pos.mk (w - 2) (ht - 2)) hinv.1 hexR

/-- C2: as stated over all requested dimensions the claim fails, because
the exit is placed at (w - 2, h - 2) for the odd-coerced dimensions w and
h, not at (width - 2, height - 2): for width 1 and height 3 the claimed
exit (-1, 1) is out of bounds and isMazeSolvable returns false. -/
theorem generateMaze_solvable_counterexample :
    isMazeSolvable (generateMaze 1 3 0 (fun _ => 0) id) (Pos.mk 1 1)
      (Pos.mk (1 - 2) (3 - 2)) = false :=
  isMazeSolvable_exit_left _ _ _ (by decide)

/-- C2 (amended): for every requested width and height at least 2, every
collectible count, and every sequence of random choices made during carving
and collectible placement, the maze returned by generateMaze is solvable
from the start cell (1, 1) to the exit cell placed at
(oddCoerce width - 2, oddCoerce height - 2): isMazeSolvable on the
generated maze with these endpoints returns true. -/
theorem generateMaze_solvable (width height : Int) (collectibles : Nat)
    (oracle : Nat → Nat) (shuffle : List Pos → List Pos)
    (hw : 2 ≤ width) (hh : 2 ≤ height) :
    isMazeSolvable (generateMaze width height collectibles oracle shuffle)
      (Pos.mk 1 1)
      (Pos.mk (oddCoerce width - 2) (oddCoerce height - 2)) = true :=
  generated_solvable_aux (oddCoerce width) (oddCoerce height) oracle _
    (oddCoerce_odd width) (oddCoerce_odd height)
    (oddCoerce_ge width hw) (oddCoerce_ge height hh)

/-- C2 witness: the amended theorem applied at width 2, height 2, one
collectible, the all-zero random stream and the identity shuffle. -/
theorem generateMaze_solvable_witness :
    (2 ≤ (2 : Int)) ∧
    isMazeSolvable (generateMaze 2 2 1 (fun _ => 0) id) (Pos.mk 1 1)
      (Pos.mk (oddCoerce 2 - 2) (oddCoerce 2 - 2)) = true :=
  ⟨by decide, generateMaze_solvable 2 2 1 (fun _ => 0) id (by decide) (by decide)⟩
